import Mathlib

/-!
# Verification of the `blogs_pydantic` validation examples

This file gives a shallow embedding of the three example scripts
(`v1_basic_validation.py`, `v2_semantic_validation.py`,
`v3_schema_validation.py`).  The scripts declare pydantic models (field
names, declared types, constraints, custom `field_validator`s, defaults,
and the `extra` configuration) and run them on a sample payload.  The
model declarations, the custom validator bodies and the sample payloads
are translated directly from the source files.  The validation engine
itself is the pydantic v2 runtime, which is not part of the repository's
sources; it is embedded here by modelling the documented pydantic v2
runtime behaviour for exactly the features these declarations exercise
(lax coercion of scalars, ISO date/datetime parsing, list and nested
model recursion, numeric constraints, after-mode field validators in
which a `ValueError` becomes a validation error while any other
exception propagates, defaults used as-is without validation, and the
`extra` policies `ignore` (the default), `allow` and `forbid`).
-/

/-- A step in the path locating a violation: a mapping key or a sequence
index (pydantic renders these as e.g. `teams.0.name`). -/
inductive PathItem where
  | key (s : String)
  | idx (n : Nat)
deriving DecidableEq, Repr

/-- A violation path, outermost item first. -/
abbrev VPath := List PathItem

/-- The error taxonomy produced by validation: missing required field,
failed type coercion, failed constraint (numeric bound or custom
validator message, with the numeric bound carried explicitly when there
is one), and unknown key under the `forbid` policy. -/
inductive Violation where
  | missing (path : VPath)
  | typeError (path : VPath) (expected : String)
  | constraintViolation (path : VPath) (msg : String) (bound : Option Int)
  | unknownField (path : VPath)
deriving DecidableEq, Repr

/-- The path component of a violation. -/
def Violation.path : Violation → VPath
  | .missing p => p
  | .typeError p _ => p
  | .constraintViolation p _ _ => p
  | .unknownField p => p

/-- A calendar date, as produced by `datetime.date`. -/
structure PyDate where
  year : Nat
  month : Nat
  day : Nat
deriving DecidableEq, Repr

/-- A timestamp, as produced by `datetime.datetime` (naive, with the
fractional-second digits kept verbatim). -/
structure PyDateTime where
  date : PyDate
  hour : Nat
  minute : Nat
  second : Nat
  frac : List Char
deriving DecidableEq, Repr

/-- Strict lexicographic order on dates, mirroring Python's `date`
comparison (used by the `validate_dob` validator). -/
def dateLtB (a b : PyDate) : Bool :=
  a.year < b.year ||
    (a.year = b.year && (a.month < b.month ||
      (a.month = b.month && a.day < b.day)))

/-- An untyped input value: the Python values a deserialized API
response (or a `model_dump`) can contain. -/
inductive JValue where
  | jnull
  | jbool (b : Bool)
  | jint (n : Int)
  | jfloat (q : Rat)
  | jstr (s : String)
  | jdate (d : PyDate)
  | jdatetime (dt : PyDateTime)
  | jarr (xs : List JValue)
  | jobj (entries : List (String × JValue))

/-- A typed, validated value. -/
inductive Value where
  | vint (n : Int)
  | vfloat (q : Rat)
  | vstr (s : String)
  | vbool (b : Bool)
  | vdate (d : PyDate)
  | vdatetime (dt : PyDateTime)
  | vnone
  | vlist (xs : List Value)
  | vrec (fields : List (String × Value))

/-- First value stored under a key in an association list (Python dicts
have unique keys; on duplicates the first entry wins, matching how the
engine reads a mapping). -/
def lookupKey {α : Type} : List (String × α) → String → Option α
  | [], _ => none
  | (k, v) :: rest, n => if k = n then some v else lookupKey rest n

/-- Split a character list on a separator character, keeping empty
chunks, mirroring Python's `str.split(sep)` with an explicit one-
character separator (`"".split(" ") == [""]`). -/
def splitOnChar (sep : Char) : List Char → List (List Char)
  | [] => [[]]
  | c :: cs =>
    if c = sep then [] :: splitOnChar sep cs
    else
      match splitOnChar sep cs with
      | [] => [[c]]
      | w :: ws => (c :: w) :: ws

/-- Numeric value of a list of decimal digit characters. -/
def digitsToNat (cs : List Char) : Nat :=
  cs.foldl (fun a c => a * 10 + (c.toNat - 48)) 0

/-- Parse a nonempty all-digit character list. -/
def parseNatDigits (cs : List Char) : Option Nat :=
  if cs ≠ [] ∧ cs.all Char.isDigit then some (digitsToNat cs) else none

/-- Parse a string as a (lax-mode) integer: an optional sign followed by
decimal digits.  A float-formatted string such as `"1997.0"` is not an
integer string and is rejected, mirroring pydantic's `int_parsing`
behaviour. -/
def parseIntStr (s : String) : Option Int :=
  match s.data with
  | [] => none
  | c :: rest =>
    if c = '-' then (parseNatDigits rest).map (fun n => -(n : Int))
    else if c = '+' then (parseNatDigits rest).map (fun n => (n : Int))
    else (parseNatDigits (c :: rest)).map (fun n => (n : Int))

/-- Parse a string as a float: an optional sign, digits, and an optional
fractional part. -/
def parseFloatStr (s : String) : Option Rat :=
  let core : List Char → Option Rat := fun cs =>
    match splitOnChar '.' cs with
    | [ip] => (parseNatDigits ip).map (fun n => (n : Rat))
    | [ip, fp] =>
      match parseNatDigits ip, parseNatDigits fp with
      | some n, some f => some (mkRat (n * 10 ^ fp.length + f) (10 ^ fp.length))
      | _, _ => none
    | _ => none
  match s.data with
  | '-' :: rest => (core rest).map (fun q => -q)
  | '+' :: rest => core rest
  | cs => core cs

/-- Leap-year rule of the proleptic Gregorian calendar. -/
def isLeap (y : Nat) : Bool :=
  y % 4 = 0 && (y % 100 ≠ 0 || y % 400 = 0)

/-- Number of days in a month. -/
def daysInMonth (y m : Nat) : Nat :=
  if m = 2 then (if isLeap y then 29 else 28)
  else if m = 4 || m = 6 || m = 9 || m = 11 then 30
  else 31

/-- Parse an ISO-8601 `YYYY-MM-DD` date string, checking calendar
validity the way `datetime.date` does. -/
def parseDate (s : String) : Option PyDate :=
  match splitOnChar '-' s.data with
  | [ys, ms, ds] =>
    if ys.length = 4 ∧ ms.length = 2 ∧ ds.length = 2 then
      match parseNatDigits ys, parseNatDigits ms, parseNatDigits ds with
      | some y, some m, some d =>
        if 1 ≤ y ∧ 1 ≤ m ∧ m ≤ 12 ∧ 1 ≤ d ∧ d ≤ daysInMonth y m then
          some ⟨y, m, d⟩
        else none
      | _, _, _ => none
    else none
  | _ => none

/-- Parse an `HH:MM:SS` time with an optional fractional part. -/
def parseTime (cs : List Char) : Option (Nat × Nat × Nat × List Char) :=
  let coreTime : List Char → Option (Nat × Nat × Nat) := fun t =>
    match splitOnChar ':' t with
    | [hs, ms, ss] =>
      if hs.length = 2 ∧ ms.length = 2 ∧ ss.length = 2 then
        match parseNatDigits hs, parseNatDigits ms, parseNatDigits ss with
        | some h, some m, some sec =>
          if h < 24 ∧ m < 60 ∧ sec < 60 then some (h, m, sec) else none
        | _, _, _ => none
      else none
    | _ => none
  match splitOnChar '.' cs with
  | [t] => (coreTime t).map (fun p => (p.1, p.2.1, p.2.2, []))
  | [t, f] =>
    if f ≠ [] ∧ f.all Char.isDigit then
      (coreTime t).map (fun p => (p.1, p.2.1, p.2.2, f))
    else none
  | _ => none

/-- Parse an extended ISO-8601 datetime string
(`YYYY-MM-DDTHH:MM:SS[.ffff]`, or a bare date read as midnight). -/
def parseDateTime (s : String) : Option PyDateTime :=
  match splitOnChar 'T' s.data with
  | [d] => (parseDate (String.mk d)).map (fun dd => ⟨dd, 0, 0, 0, []⟩)
  | [d, t] =>
    match parseDate (String.mk d), parseTime t with
    | some dd, some (h, m, sec, f) => some ⟨dd, h, m, sec, f⟩
    | _, _ => none
  | _ => none

example : parseDate "1976-04-25" = some ⟨1976, 4, 25⟩ := by decide
example : parseDate "1976-13-25" = none := by decide
example : parseIntStr "1997" = some 1997 := by decide
example : parseIntStr "1997.0" = none := by decide
example : parseDateTime "2023-10-10T00:00:00.0000" =
    some ⟨⟨2023, 10, 10⟩, 0, 0, 0, ['0', '0', '0', '0']⟩ := by decide
example : splitOnChar ' ' "Tim  Duncan".data =
    ["Tim".data, [], "Duncan".data] := by decide

/-- Result of running one custom field validator on a value: the
validator either returns the value unchanged, raises `ValueError` (which
the engine turns into a violation), or raises some other exception
(which escapes the whole validation call). -/
inductive VRes where
  | ok
  | valueError (msg : String)
  | crash (exc : String)
deriving DecidableEq, Repr

/-- Loop body of `validate_upper_case_names` from
`v2_semantic_validation.py`, over the space-separated words:

    for name in names:
        if not name[0].isupper():
            raise ValueError(msg)

`name[0]` on an empty word raises `IndexError` before `isupper` is ever
consulted. -/
def checkCapWords (msg : String) : List (List Char) → VRes
  | [] => .ok
  | [] :: _ => .crash "IndexError"
  | (c :: _) :: rest =>
    if c.isUpper then checkCapWords msg rest else .valueError msg

/-- The custom `field_validator`s appearing in
`v2_semantic_validation.py`: `validate_upper_case_names` (on `Teams.name`
and `Player.name`, with their respective messages) and `validate_dob`
(on `Player.dob`). -/
inductive FieldValidator where
  | upperCaseNames (msg : String)
  | dobMin1900
deriving DecidableEq, Repr

/-- Run one custom validator on an already-coerced value, translated
from the validator bodies in `v2_semantic_validation.py`. -/
def runValidator : FieldValidator → Value → VRes
  | .upperCaseNames msg, .vstr s => checkCapWords msg (splitOnChar ' ' s.data)
  | .upperCaseNames _, _ => .ok
  | .dobMin1900, .vdate d =>
    if dateLtB d ⟨1900, 1, 1⟩ then
      .valueError "Years prior to 1900 not allowed."
    else .ok
  | .dobMin1900, _ => .ok

/-- Numeric constraints attached to a declared type through `Annotated`
metadata: `Field(ge=1949)` for `FirstYearInt`, `gt 0` for `PositiveInt`,
`ge 0` for `NonNegativeFloat`. -/
inductive NumCons where
  | ge (b : Int)
  | gt (b : Int)
deriving DecidableEq, Repr

/-- Does an integer satisfy a numeric constraint? -/
def intConsOk (n : Int) : NumCons → Bool
  | .ge b => b ≤ n
  | .gt b => b < n

/-- Does a float satisfy a numeric constraint?  (`b ≤ q` and `b < q`
decided on the numerator/denominator representation, so that the test
evaluates by kernel reduction.) -/
def floatConsOk (q : Rat) : NumCons → Bool
  | .ge b => b * (q.den : Int) ≤ q.num
  | .gt b => b * (q.den : Int) < q.num

/-- Violation reported for a failed numeric constraint, carrying the
bound (pydantic's `greater_than_equal` / `greater_than` errors). -/
def consViol (path : VPath) : NumCons → Violation
  | .ge b => .constraintViolation path "greater_than_equal" (some b)
  | .gt b => .constraintViolation path "greater_than" (some b)

/-- All violations of a list of numeric constraints by an integer. -/
def intConsViols (path : VPath) (n : Int) (cons : List NumCons) : List Violation :=
  (cons.filter (fun c => !intConsOk n c)).map (consViol path)

/-- All violations of a list of numeric constraints by a float. -/
def floatConsViols (path : VPath) (q : Rat) (cons : List NumCons) : List Violation :=
  (cons.filter (fun c => !floatConsOk q c)).map (consViol path)

/-- Lax coercion of a raw value to `int`, as pydantic v2 does it: an
`int` is taken as-is, an integral `float` is truncated losslessly, an
integer-formatted string is parsed; everything else (including `bool`
and float-formatted strings) is a type error. -/
def intLax : JValue → Option Int
  | .jint n => some n
  | .jfloat q => if q.den = 1 then some q.num else none
  | .jstr s => parseIntStr s
  | _ => none

/-- Lax coercion of a raw value to `float`. -/
def floatLax : JValue → Option Rat
  | .jfloat q => some q
  | .jint n => some (n : Rat)
  | .jstr s => parseFloatStr s
  | _ => none

/-- Lax coercion of a raw value to `bool` (a `bool`, or the ints 0/1). -/
def boolLax : JValue → Option Bool
  | .jbool b => some b
  | .jint 0 => some false
  | .jint 1 => some true
  | _ => none

/-- Leaf field types: the scalar, enum and sequence types that the
nested models (`Teams`, `CareerStats`) use, with numeric constraints
attached to `int`/`float` the way `Annotated` metadata is. -/
inductive FType0 where
  | int (cons : List NumCons)
  | float (cons : List NumCons)
  | str
  | bool
  | date
  | datetime
  | lit (opts : List String)
  | list (t : FType0)
deriving Repr

/-- A leaf field declaration: declared type, optional default (used
verbatim when the key is absent), and the custom validators bound to the
field by `field_validator`. -/
structure FDecl0 where
  ty : FType0
  dflt : Option Value
  validators : List FieldValidator

/-- The unknown-key policy of a model: pydantic's `extra` configuration
(`ignore`, `allow`, `forbid`). -/
inductive ExtraPolicy where
  | ignore
  | allow
  | forbid
deriving DecidableEq, Repr

/-- The `extra` policy a model gets when its declaration does not set
one: pydantic's documented default is `ignore`. -/
def defaultExtraPolicy : ExtraPolicy := ExtraPolicy.ignore

/-- A leaf model declaration (no nested models): ordered fields plus the
unknown-key policy. -/
structure MDecl0 where
  mname : String
  fields : List (String × FDecl0)
  extra : ExtraPolicy

/-- The violations of a coercion result (none on success). -/
def errsOf : Except (List Violation) Value → List Violation
  | .error vs => vs
  | .ok _ => []

/-- The value of a coercion result (with a placeholder on failure; the
placeholder is never used, because a failing element forces the whole
sequence to fail). -/
def valOf : Except (List Violation) Value → Value
  | .ok v => v
  | .error _ => .vnone

/-- Combine elementwise coercion results of a sequence: one violation
per failing index, the others validated independently; the list value is
built only when every element succeeded. -/
def combineElems (rs : List (Except (List Violation) Value)) :
    Except (List Violation) Value :=
  if rs.flatMap errsOf = [] then .ok (.vlist (rs.map valOf))
  else .error (rs.flatMap errsOf)

/-- Apply a coercion function to each element of a sequence, recording
the element index in the path. -/
def elems0 (f : VPath → JValue → Except (List Violation) Value)
    (path : VPath) : Nat → List JValue → List (Except (List Violation) Value)
  | _, [] => []
  | i, x :: xs => f (path ++ [.idx i]) x :: elems0 f path (i + 1) xs

/-- Coerce a raw value to a leaf field type, producing either the typed
value or the violations, at the given path. -/
def coerce0 : FType0 → VPath → JValue → Except (List Violation) Value
  | .int cons, path, v =>
    match intLax v with
    | some n =>
      if intConsViols path n cons = [] then .ok (.vint n)
      else .error (intConsViols path n cons)
    | none => .error [.typeError path "int"]
  | .float cons, path, v =>
    match floatLax v with
    | some q =>
      if floatConsViols path q cons = [] then .ok (.vfloat q)
      else .error (floatConsViols path q cons)
    | none => .error [.typeError path "float"]
  | .str, path, v =>
    match v with
    | .jstr s => .ok (.vstr s)
    | _ => .error [.typeError path "str"]
  | .bool, path, v =>
    match boolLax v with
    | some b => .ok (.vbool b)
    | none => .error [.typeError path "bool"]
  | .date, path, v =>
    match v with
    | .jdate d => .ok (.vdate d)
    | .jstr s =>
      match parseDate s with
      | some d => .ok (.vdate d)
      | none => .error [.typeError path "date"]
    | _ => .error [.typeError path "date"]
  | .datetime, path, v =>
    match v with
    | .jdatetime dt => .ok (.vdatetime dt)
    | .jstr s =>
      match parseDateTime s with
      | some dt => .ok (.vdatetime dt)
      | none => .error [.typeError path "datetime"]
    | _ => .error [.typeError path "datetime"]
  | .lit opts, path, v =>
    match v with
    | .jstr s => if opts.contains s then .ok (.vstr s) else .error [.typeError path "literal"]
    | _ => .error [.typeError path "literal"]
  | .list t, path, v =>
    match v with
    | .jarr xs => combineElems (elems0 (coerce0 t) path 0 xs)
    | _ => .error [.typeError path "list"]

/-- Run the validators bound to a field, in order, on the coerced value:
a `ValueError` stops the field with one constraint violation, any other
exception aborts the whole validation call. -/
def runValidators (path : VPath) (v : Value) :
    List FieldValidator → Except String (List Violation)
  | [] => .ok []
  | fv :: rest =>
    match runValidator fv v with
    | .ok => runValidators path v rest
    | .valueError msg => .ok [.constraintViolation path msg none]
    | .crash exc => .error exc

/-- Validate one leaf field against an input mapping: presence check
(with the default used as-is when absent), coercion, then the custom
validators.  Returns the field's violations and its contribution to the
record. -/
def validateField0 (path : VPath) (n : String) (fd : FDecl0)
    (obj : List (String × JValue)) :
    Except String (List Violation × List (String × Value)) :=
  match lookupKey obj n with
  | none =>
    match fd.dflt with
    | some dv => .ok ([], [(n, dv)])
    | none => .ok ([.missing (path ++ [.key n])], [])
  | some raw =>
    match coerce0 fd.ty (path ++ [.key n]) raw with
    | .error vs => .ok (vs, [])
    | .ok v =>
      match runValidators (path ++ [.key n]) v fd.validators with
      | .error exc => .error exc
      | .ok [] => .ok ([], [(n, v)])
      | .ok vs => .ok (vs, [])

/-- Validate the leaf fields in declaration order, concatenating every
field's violations (no early termination). -/
def validateFields0 (path : VPath) (obj : List (String × JValue)) :
    List (String × FDecl0) → Except String (List Violation × List (String × Value))
  | [] => .ok ([], [])
  | (n, fd) :: rest => do
    let (vs, fs) ← validateField0 path n fd obj
    let (vs2, fs2) ← validateFields0 path obj rest
    .ok (vs ++ vs2, fs ++ fs2)

/-- Apply the unknown-key policy to the input keys that are not declared
fields: `ignore` drops them, `allow` copies them verbatim into the extra
fields bag, `forbid` reports each as a violation. -/
def extraOut (policy : ExtraPolicy) (path : VPath) (declared : List String)
    (obj : List (String × JValue)) : List Violation × List (String × JValue) :=
  let ex := obj.filter (fun kv => !(declared.contains kv.1))
  match policy with
  | .ignore => ([], [])
  | .allow => ([], ex)
  | .forbid => (ex.map (fun kv => .unknownField (path ++ [.key kv.1])), [])

/-- Outcome of validating one model: all collected violations, the
validated fields, and the extra fields bag. -/
structure MOut where
  viols : List Violation
  fields : List (String × Value)
  extra : List (String × JValue)

/-- Validate an input value against a leaf model declaration. -/
def validateModel0 (m : MDecl0) (path : VPath) (v : JValue) :
    Except String MOut :=
  match v with
  | .jobj obj => do
    let (vs, fs) ← validateFields0 path obj m.fields
    let (evs, ex) := extraOut m.extra path (m.fields.map Prod.fst) obj
    .ok ⟨vs ++ evs, fs, ex⟩
  | _ => .ok ⟨[.typeError path "dict"], [], []⟩

/-- Player-level field types: a leaf type, a nested model, an optional
type (`datetime | None`), or a sequence of these. -/
inductive FType1 where
  | base (t : FType0)
  | nested (m : MDecl0)
  | opt (t : FType1)
  | list (t : FType1)

/-- A player-level field declaration. -/
structure FDecl1 where
  ty : FType1
  dflt : Option Value
  validators : List FieldValidator

/-- A player-level model declaration. -/
structure MDecl1 where
  mname : String
  fields : List (String × FDecl1)
  extra : ExtraPolicy

/-- Apply a (possibly crashing) coercion to each element of a sequence,
recording the element index; a crash in any element aborts. -/
def elems1
    (f : VPath → JValue → Except String (Except (List Violation) Value))
    (path : VPath) : Nat → List JValue →
    Except String (List (Except (List Violation) Value))
  | _, [] => .ok []
  | i, x :: xs => do
    let r ← f (path ++ [.idx i]) x
    let rs ← elems1 f path (i + 1) xs
    .ok (r :: rs)

/-- Coerce a raw value to a player-level field type.  Nested models
recurse through `validateModel0`, whose custom validators can raise, so
the result is wrapped in the crash monad. -/
def coerce1 : FType1 → VPath → JValue → Except String (Except (List Violation) Value)
  | .base t, path, v => .ok (coerce0 t path v)
  | .nested m, path, v => do
    let out ← validateModel0 m path v
    if out.viols = [] then .ok (.ok (.vrec out.fields)) else .ok (.error out.viols)
  | .opt t, path, v =>
    match v with
    | .jnull => .ok (.ok .vnone)
    | _ => coerce1 t path v
  | .list t, path, v =>
    match v with
    | .jarr xs => do
      let rs ← elems1 (coerce1 t) path 0 xs
      .ok (combineElems rs)
    | _ => .ok (.error [.typeError path "list"])

/-- Validate one player-level field: presence (default used as-is when
absent), coercion, custom validators. -/
def validateField1 (path : VPath) (n : String) (fd : FDecl1)
    (obj : List (String × JValue)) :
    Except String (List Violation × List (String × Value)) :=
  match lookupKey obj n with
  | none =>
    match fd.dflt with
    | some dv => .ok ([], [(n, dv)])
    | none => .ok ([.missing (path ++ [.key n])], [])
  | some raw => do
    let c ← coerce1 fd.ty (path ++ [.key n]) raw
    match c with
    | .error vs => .ok (vs, [])
    | .ok v =>
      match runValidators (path ++ [.key n]) v fd.validators with
      | .error exc => .error exc
      | .ok [] => .ok ([], [(n, v)])
      | .ok vs => .ok (vs, [])

/-- Validate the player-level fields in declaration order, concatenating
every field's violations. -/
def validateFields1 (path : VPath) (obj : List (String × JValue)) :
    List (String × FDecl1) → Except String (List Violation × List (String × Value))
  | [] => .ok ([], [])
  | (n, fd) :: rest => do
    let (vs, fs) ← validateField1 path n fd obj
    let (vs2, fs2) ← validateFields1 path obj rest
    .ok (vs ++ vs2, fs ++ fs2)

/-- Validate an input value against a player-level model declaration. -/
def validateModel1 (m : MDecl1) (path : VPath) (v : JValue) :
    Except String MOut :=
  match v with
  | .jobj obj => do
    let (vs, fs) ← validateFields1 path obj m.fields
    let (evs, ex) := extraOut m.extra path (m.fields.map Prod.fst) obj
    .ok ⟨vs ++ evs, fs, ex⟩
  | _ => .ok ⟨[.typeError path "dict"], [], []⟩

/-- The overall result of `validate`: either a fully validated record
(with the extra fields bag) or the complete list of violations. -/
inductive VOutcome where
  | validated (fields : List (String × Value)) (extra : List (String × JValue))
  | invalid (errs : List Violation)

/-- The `validate(declaration, input)` contract: run the model on the
input; a record is returned only when there are zero violations,
otherwise the complete ordered violation list is returned.  An exception
raised by a custom validator (other than `ValueError`) escapes as the
outer `Except.error`, which is exactly `Model(**input)` raising. -/
def validate (m : MDecl1) (v : JValue) : Except String VOutcome := do
  let out ← validateModel1 m [] v
  if out.viols = [] then .ok (.validated out.fields out.extra)
  else .ok (.invalid out.viols)

/-- `Teams` from `v1_basic_validation.py` (and `v3_schema_validation.py`):
`name: str`, `championships: list[int]`; no `extra` configured, so the
default policy applies. -/
def v1Teams : MDecl0 :=
  ⟨"Teams",
   [("name", ⟨.str, none, []⟩),
    ("championships", ⟨.list (.int []), none, []⟩)],
   defaultExtraPolicy⟩

/-- `CareerStats` from `v1_basic_validation.py` (and
`v3_schema_validation.py`): three plain floats. -/
def v1CareerStats : MDecl0 :=
  ⟨"CareerStats",
   [("ppg", ⟨.float [], none, []⟩),
    ("rpg", ⟨.float [], none, []⟩),
    ("apg", ⟨.float [], none, []⟩)],
   defaultExtraPolicy⟩

/-- `Player` from `v1_basic_validation.py`: nine plain required fields,
no `extra` configured (note the field is `positions_played`, while the
sample payload carries `position_played`). -/
def v1Player : MDecl1 :=
  ⟨"Player",
   [("id", ⟨.base (.int []), none, []⟩),
    ("name", ⟨.base .str, none, []⟩),
    ("teams", ⟨.list (.nested v1Teams), none, []⟩),
    ("career_stats", ⟨.nested v1CareerStats, none, []⟩),
    ("dob", ⟨.base .date, none, []⟩),
    ("draft_year", ⟨.base (.int []), none, []⟩),
    ("positions_played", ⟨.list (.base .str), none, []⟩),
    ("is_active", ⟨.base .bool, none, []⟩),
    ("last_updated", ⟨.base .datetime, none, []⟩)],
   defaultExtraPolicy⟩

/-- `Teams` from `v2_semantic_validation.py`: `championships:
list[FirstYearInt]` (elements `ge 1949`) and the
`validate_upper_case_names` field validator on `name`, raising
`ValueError("Team name  must be capitalized.")`. -/
def v2Teams : MDecl0 :=
  ⟨"Teams",
   [("name", ⟨.str, none, [.upperCaseNames "Team name  must be capitalized."]⟩),
    ("championships", ⟨.list (.int [.ge 1949]), none, []⟩)],
   defaultExtraPolicy⟩

/-- `CareerStats` from `v2_semantic_validation.py`: three
`NonNegativeFloat`s. -/
def v2CareerStats : MDecl0 :=
  ⟨"CareerStats",
   [("ppg", ⟨.float [.ge 0], none, []⟩),
    ("rpg", ⟨.float [.ge 0], none, []⟩),
    ("apg", ⟨.float [.ge 0], none, []⟩)],
   defaultExtraPolicy⟩

/-- `Player` from `v2_semantic_validation.py`: `PositiveInt` id,
`FirstYearInt` draft year, `Literal["C", "F", "G"]` positions (field
`position_played`), and the `validate_upper_case_names` /
`validate_dob` field validators. -/
def v2Player : MDecl1 :=
  ⟨"Player",
   [("id", ⟨.base (.int [.gt 0]), none, []⟩),
    ("name", ⟨.base .str, none, [.upperCaseNames "Names must be capitalized."]⟩),
    ("teams", ⟨.list (.nested v2Teams), none, []⟩),
    ("career_stats", ⟨.nested v2CareerStats, none, []⟩),
    ("dob", ⟨.base .date, none, [.dobMin1900]⟩),
    ("draft_year", ⟨.base (.int [.ge 1949]), none, []⟩),
    ("position_played", ⟨.list (.base (.lit ["C", "F", "G"])), none, []⟩),
    ("is_active", ⟨.base .bool, none, []⟩),
    ("last_updated", ⟨.base .datetime, none, []⟩)],
   defaultExtraPolicy⟩

/-- `Player` from `v3_schema_validation.py`: `model_config =
ConfigDict(extra="allow")`, `dob: date = None` (a default of `None` on a
field whose declared type is `date`), and `last_updated: datetime |
None`. -/
def v3Player : MDecl1 :=
  ⟨"Player",
   [("id", ⟨.base (.int []), none, []⟩),
    ("name", ⟨.base .str, none, []⟩),
    ("teams", ⟨.list (.nested v1Teams), none, []⟩),
    ("career_stats", ⟨.nested v1CareerStats, none, []⟩),
    ("dob", ⟨.base .date, some .vnone, []⟩),
    ("draft_year", ⟨.base (.int []), none, []⟩),
    ("positions_played", ⟨.list (.base .str), none, []⟩),
    ("is_active", ⟨.base .bool, none, []⟩),
    ("last_updated", ⟨.opt (.base .datetime), none, []⟩)],
   .allow⟩

/-- The sample API response of `v1_basic_validation.py` and
`v2_semantic_validation.py` (identical dictionaries; note the key
`position_played`). -/
def v1SchemaEntries : List (String × JValue) :=
  [("id", .jint 1),
     ("name", .jstr "Tim Duncan"),
     ("teams", .jarr
       [.jobj
         [("name", .jstr "San Antonio Spurs"),
          ("championships", .jarr
            [.jint 1999, .jint 2003, .jint 2005, .jint 2007, .jint 2014])]]),
     ("career_stats", .jobj
       [("ppg", .jfloat 19),
        ("rpg", .jfloat (mkRat 54 5)),
        ("apg", .jfloat 3)]),
     ("dob", .jstr "1976-04-25"),
     ("draft_year", .jint 1997),
     ("position_played", .jarr [.jstr "F", .jstr "C"]),
     ("is_active", .jbool false),
     ("last_updated", .jstr "2023-10-10T00:00:00.0000")]

/-- The sample API response as the mapping value. -/
def v1Schema : JValue := .jobj v1SchemaEntries

/-- The sample API response of `v3_schema_validation.py`: `dob` is
commented out, `height` is new, `positions_played` matches the model,
and `last_updated` is `None`. -/
def v3SchemaEntries : List (String × JValue) :=
  [("id", .jint 1),
     ("name", .jstr "Tim Duncan"),
     ("teams", .jarr
       [.jobj
         [("name", .jstr "San Antonio Spurs"),
          ("championships", .jarr
            [.jint 1999, .jint 2003, .jint 2005, .jint 2007, .jint 2014])]]),
     ("career_stats", .jobj
       [("ppg", .jfloat 19),
        ("rpg", .jfloat (mkRat 54 5)),
        ("apg", .jfloat 3)]),
     ("height", .jstr "6 feet 11 inches"),
     ("draft_year", .jint 1997),
     ("positions_played", .jarr [.jstr "F", .jstr "C"]),
     ("is_active", .jbool false),
     ("last_updated", .jnull)]

/-- The v3 sample API response as the mapping value. -/
def v3Schema : JValue := .jobj v3SchemaEntries

example :
    validate v1Player v1Schema =
      Except.ok (.invalid [.missing [.key "positions_played"]]) := rfl

/-- The v2 sample payload's entries with the `name` and `draft_year`
values as parameters (everything else as in the script). -/
def v2Entries (nm : String) (dy : Int) : List (String × JValue) :=
  [("id", .jint 1),
   ("name", .jstr nm),
   ("teams", .jarr
     [.jobj
       [("name", .jstr "San Antonio Spurs"),
        ("championships", .jarr
          [.jint 1999, .jint 2003, .jint 2005, .jint 2007, .jint 2014])]]),
   ("career_stats", .jobj
     [("ppg", .jfloat 19),
      ("rpg", .jfloat (mkRat 54 5)),
      ("apg", .jfloat 3)]),
   ("dob", .jstr "1976-04-25"),
   ("draft_year", .jint dy),
   ("position_played", .jarr [.jstr "F", .jstr "C"]),
   ("is_active", .jbool false),
   ("last_updated", .jstr "2023-10-10T00:00:00.0000")]

/-- The validated record the v2 `Player` produces on the sample
payload. -/
def v2Fields : List (String × Value) :=
  [("id", .vint 1),
   ("name", .vstr "Tim Duncan"),
   ("teams", .vlist
     [.vrec
       [("name", .vstr "San Antonio Spurs"),
        ("championships", .vlist
          [.vint 1999, .vint 2003, .vint 2005, .vint 2007, .vint 2014])]]),
   ("career_stats", .vrec
     [("ppg", .vfloat 19),
      ("rpg", .vfloat (mkRat 54 5)),
      ("apg", .vfloat 3)]),
   ("dob", .vdate ⟨1976, 4, 25⟩),
   ("draft_year", .vint 1997),
   ("position_played", .vlist [.vstr "F", .vstr "C"]),
   ("is_active", .vbool false),
   ("last_updated", .vdatetime ⟨⟨2023, 10, 10⟩, 0, 0, 0, ['0', '0', '0', '0']⟩)]

example :
    validate v2Player (.jobj (v2Entries "Tim Duncan" 1997)) =
      Except.ok (.validated v2Fields []) := rfl

example :
    validate v2Player (.jobj (v2Entries "Tim Duncan" 1920)) =
      Except.ok (.invalid
        [.constraintViolation [.key "draft_year"] "greater_than_equal" (some 1949)]) := rfl

example :
    validate v2Player (.jobj (v2Entries "Tim  Duncan" 1997)) =
      Except.error "IndexError" := rfl

/-- The validated record the v3 `Player` produces on the v3 sample
payload: `dob` filled in verbatim with the default `None`,
`last_updated` `None` through `datetime | None`. -/
def v3Fields : List (String × Value) :=
  [("id", .vint 1),
   ("name", .vstr "Tim Duncan"),
   ("teams", .vlist
     [.vrec
       [("name", .vstr "San Antonio Spurs"),
        ("championships", .vlist
          [.vint 1999, .vint 2003, .vint 2005, .vint 2007, .vint 2014])]]),
   ("career_stats", .vrec
     [("ppg", .vfloat 19),
      ("rpg", .vfloat (mkRat 54 5)),
      ("apg", .vfloat 3)]),
   ("dob", .vnone),
   ("draft_year", .vint 1997),
   ("positions_played", .vlist [.vstr "F", .vstr "C"]),
   ("is_active", .vbool false),
   ("last_updated", .vnone)]

example :
    validate v3Player v3Schema =
      Except.ok (.validated v3Fields [("height", .jstr "6 feet 11 inches")]) := rfl

mutual
/-- Re-serialize a validated value back to the original mapping shape,
as `model_dump()` does (temporal values stay Python objects). -/
def dumpValue : Value → JValue
  | .vint n => .jint n
  | .vfloat q => .jfloat q
  | .vstr s => .jstr s
  | .vbool b => .jbool b
  | .vdate d => .jdate d
  | .vdatetime dt => .jdatetime dt
  | .vnone => .jnull
  | .vlist xs => .jarr (dumpList xs)
  | .vrec fs => .jobj (dumpFields fs)

/-- Re-serialize a list of validated values. -/
def dumpList : List Value → List JValue
  | [] => []
  | x :: xs => dumpValue x :: dumpList xs

/-- Re-serialize validated record fields. -/
def dumpFields : List (String × Value) → List (String × JValue)
  | [] => []
  | (n, v) :: fs => (n, dumpValue v) :: dumpFields fs
end

example : dumpValue (.vrec [("a", .vlist [.vint 1])]) =
    .jobj [("a", .jarr [.jint 1])] := rfl

/-- Does a validated value conform to a leaf type (right shape and all
numeric constraints satisfied)?  This is exactly the invariant `coerce0`
guarantees for its outputs; a default value injected verbatim need not
satisfy it. -/
def passes0 : FType0 → Value → Bool
  | .int cons, .vint n => cons.all (intConsOk n)
  | .float cons, .vfloat q => cons.all (floatConsOk q)
  | .str, .vstr _ => true
  | .bool, .vbool _ => true
  | .date, .vdate _ => true
  | .datetime, .vdatetime _ => true
  | .lit opts, .vstr s => opts.contains s
  | .list t, .vlist xs => xs.all (passes0 t)
  | _, _ => false

/-- Pointwise conformance of validated record fields to leaf field
declarations (same names in order, each value conforming). -/
def conformFields0 : List (String × FDecl0) → List (String × Value) → Bool
  | [], [] => true
  | (n, fd) :: ds, (n', v) :: fs =>
    n == n' && passes0 fd.ty v && conformFields0 ds fs
  | _, _ => false

/-- Does a validated value conform to a player-level type? -/
def passes1 : FType1 → Value → Bool
  | .base t, v => passes0 t v
  | .nested m, .vrec fs => conformFields0 m.fields fs
  | .nested _, _ => false
  | .opt _, .vnone => true
  | .opt t, v => passes1 t v
  | .list t, .vlist xs => xs.all (passes1 t)
  | .list _, _ => false

/-- Pointwise conformance of validated record fields to player-level
field declarations. -/
def conformFields1 : List (String × FDecl1) → List (String × Value) → Bool
  | [], [] => true
  | (n, fd) :: ds, (n', v) :: fs =>
    n == n' && passes1 fd.ty v && conformFields1 ds fs
  | _, _ => false

/-- No duplicate keys. -/
def nodupKeysB : List String → Bool
  | [] => true
  | k :: ks => !(ks.contains k) && nodupKeysB ks

/-- A leaf declaration with unique field names, no custom validators and
no defaults (true of `Teams` and `CareerStats` in v1/v3). -/
def declOk0 (m : MDecl0) : Bool :=
  nodupKeysB (m.fields.map Prod.fst) &&
    m.fields.all (fun f => f.2.validators.isEmpty && f.2.dflt.isNone)

/-- A player-level type whose nested declarations are all `declOk0`. -/
def tyOk1 : FType1 → Bool
  | .base _ => true
  | .nested m => declOk0 m
  | .opt t => tyOk1 t
  | .list t => tyOk1 t

example : tyOk1 (.list (.nested v1Teams)) = true := by decide
example : passes0 .date .vnone = false := rfl

/-- C1: the claim says no exception ever escapes `validate`.  It is
refuted by the code: on the sample payload with the name
`"Tim  Duncan"` (two spaces, so `split(" ")` yields an empty word),
`validate_upper_case_names` evaluates `name[0]` on an empty string and
the resulting `IndexError` is not a `ValueError`, so pydantic lets it
escape `Player(**schema)` instead of returning a validation error. -/
theorem c1_theorem :
    validate v2Player (.jobj (v2Entries "Tim  Duncan" 1997)) =
      Except.error "IndexError" := rfl

/-- C2 counterexample: the claim says the default unknown-key policy is
reject, so the v1 `Player` on the sample payload (which carries the
undeclared key `position_played`) should report an unknown-field
violation for it.  In fact the result's complete violation list is a
single missing-field violation for `positions_played`, containing no
unknown-field violation for `position_played`. -/
theorem c2_counterexample :
    validate v1Player v1Schema =
        Except.ok (.invalid [.missing [.key "positions_played"]]) ∧
      Violation.unknownField [.key "position_played"] ∉
        [Violation.missing [.key "positions_played"]] :=
  ⟨rfl, by decide⟩

/-- C2 amended: when a declaration does not specify an unknown-key
policy the default policy is ignore, not reject: unknown keys are
dropped silently, producing neither violations nor an extra fields bag;
on the v1 sample the only violation is the missing `positions_played`
field. -/
theorem c2_theorem :
    defaultExtraPolicy = ExtraPolicy.ignore ∧
      v1Player.extra = defaultExtraPolicy ∧
      (∀ path ds obj, extraOut defaultExtraPolicy path ds obj = ([], [])) ∧
      validate v1Player v1Schema =
        Except.ok (.invalid [.missing [.key "positions_played"]]) :=
  ⟨rfl, rfl, fun _ _ _ => rfl, rfl⟩

/-- C4: under the v2 declaration (`draft_year : FirstYearInt`, i.e. an
integer with `ge=1949`), the sample input with `draft_year = 1997`
validates successfully, and the same input with `draft_year = 1920`
fails with exactly one constraint violation on path `draft_year`
reporting the bound 1949. -/
theorem c4_theorem :
    validate v2Player (.jobj (v2Entries "Tim Duncan" 1997)) =
        Except.ok (.validated v2Fields []) ∧
      validate v2Player (.jobj (v2Entries "Tim Duncan" 1920)) =
        Except.ok (.invalid
          [.constraintViolation [.key "draft_year"] "greater_than_equal"
            (some 1949)]) :=
  ⟨rfl, rfl⟩

/-- Acceptance of the capitalization loop: over words that are all
nonempty (so `name[0]` never raises), the loop returns the value
exactly when every word starts with an uppercase character. -/
theorem checkCapWords_ok_iff (msg : String) :
    ∀ ws : List (List Char), (∀ w ∈ ws, w ≠ []) →
      (checkCapWords msg ws = VRes.ok ↔
        ∀ w ∈ ws, ∃ c cs, w = c :: cs ∧ c.isUpper = true) := by
  intro ws
  induction ws with
  | nil => simp [checkCapWords]
  | cons w rest ih =>
    intro hne
    have hw : w ≠ [] := hne w (List.mem_cons_self w rest)
    match w, hw with
    | c :: cs, _ =>
      by_cases hc : c.isUpper = true
      · have hrest := ih (fun x hx => hne x (List.mem_cons_of_mem _ hx))
        simp only [checkCapWords, hc, if_true]
        constructor
        · intro h x hx
          rcases List.mem_cons.mp hx with h1 | h2
          · exact ⟨c, cs, h1, hc⟩
          · exact (hrest.mp h) x h2
        · intro h
          exact hrest.mpr (fun x hx => h x (List.mem_cons_of_mem _ hx))
      · simp only [checkCapWords, hc, if_false]
        constructor
        · intro h; cases h
        · intro h
          rcases h (c :: cs) (List.mem_cons_self _ _) with ⟨c', cs', heq, hup⟩
          cases heq
          exact absurd hup hc

/-- C10: the v2 capitalization validators accept a name exactly when the
first character of every space-separated word is uppercase (stated for
names whose words are all nonempty, where `name[0]` is defined);
consequently a team name containing a word that starts with a digit,
such as `"Philadelphia 76ers"`, is rejected with a constraint violation
at `name` even though such names are conventionally well-formed. -/
theorem c10_theorem :
    (∀ msg s, (∀ w ∈ splitOnChar ' ' s.data, w ≠ []) →
      (runValidator (.upperCaseNames msg) (.vstr s) = VRes.ok ↔
        ∀ w ∈ splitOnChar ' ' s.data, ∃ c cs, w = c :: cs ∧ c.isUpper = true)) ∧
      validateModel0 v2Teams []
          (.jobj [("name", .jstr "Philadelphia 76ers"),
                  ("championships", .jarr [.jint 1983])]) =
        Except.ok
          ⟨[.constraintViolation [.key "name"]
              "Team name  must be capitalized." none],
           [("championships", .vlist [.vint 1983])], []⟩ := by
  constructor
  · intro msg s h
    simpa [runValidator] using checkCapWords_ok_iff msg (splitOnChar ' ' s.data) h
  · rfl

/-- C10 witness: the characterization instantiated at the concrete team
name `"Philadelphia 76ers"`. -/
theorem c10_witness :
    runValidator (.upperCaseNames "Team name  must be capitalized.")
        (.vstr "Philadelphia 76ers") = VRes.ok ↔
      ∀ w ∈ splitOnChar ' ' "Philadelphia 76ers".data,
        ∃ c cs, w = c :: cs ∧ c.isUpper = true :=
  c10_theorem.1 "Team name  must be capitalized." "Philadelphia 76ers"
    (by decide)

/-- A character list containing a non-digit is not an all-digit list. -/
theorem parseNatDigits_none {cs : List Char} {c : Char} (hmem : c ∈ cs)
    (hnd : c.isDigit = false) : parseNatDigits cs = none := by
  unfold parseNatDigits
  rw [if_neg]
  rintro ⟨-, hall⟩
  have := List.all_eq_true.mp hall c hmem
  rw [hnd] at this
  cases this

/-- A string containing a dot is not an integer string. -/
theorem parseIntStr_dot {s : String} (h : ('.' : Char) ∈ s.data) :
    parseIntStr s = none := by
  unfold parseIntStr
  split
  · rfl
  · next c rest heq =>
    rw [heq] at h
    by_cases hc1 : c = '-'
    · rw [if_pos hc1]
      rcases List.mem_cons.mp h with h1 | h2
      · rw [hc1] at h1; cases h1
      · rw [parseNatDigits_none h2 (by decide)]; rfl
    · rw [if_neg hc1]
      by_cases hc2 : c = '+'
      · rw [if_pos hc2]
        rcases List.mem_cons.mp h with h1 | h2
        · rw [hc2] at h1; cases h1
        · rw [parseNatDigits_none h2 (by decide)]; rfl
      · rw [if_neg hc2]
        rw [parseNatDigits_none h (by decide)]; rfl

/-- The v1 sample payload corrected to carry the declared key
`positions_played`, with the `draft_year` value as a parameter. -/
def v1Entries (dy : JValue) : List (String × JValue) :=
  [("id", .jint 1),
   ("name", .jstr "Tim Duncan"),
   ("teams", .jarr
     [.jobj
       [("name", .jstr "San Antonio Spurs"),
        ("championships", .jarr
          [.jint 1999, .jint 2003, .jint 2005, .jint 2007, .jint 2014])]]),
   ("career_stats", .jobj
     [("ppg", .jfloat 19),
      ("rpg", .jfloat (mkRat 54 5)),
      ("apg", .jfloat 3)]),
   ("dob", .jstr "1976-04-25"),
   ("draft_year", dy),
   ("positions_played", .jarr [.jstr "F", .jstr "C"]),
   ("is_active", .jbool false),
   ("last_updated", .jstr "2023-10-10T00:00:00.0000")]

/-- C8: coercion to a declared `int` rejects float-formatted strings:
any string containing a dot fails `int` coercion with a type error
(whatever constraints are attached), and concretely a field declared
`int` — `Player.draft_year` under v1, or a `Teams.championships`
element — rejects `"1997.0"` / `"1999.0"` with a type error at that
field's path instead of silently accepting it. -/
theorem c8_theorem :
    (∀ cons path s, ('.' : Char) ∈ s.data →
        coerce0 (.int cons) path (.jstr s) = .error [.typeError path "int"]) ∧
      validate v1Player (.jobj (v1Entries (.jstr "1997.0"))) =
        Except.ok (.invalid [.typeError [.key "draft_year"] "int"]) ∧
      validateModel0 v1Teams []
          (.jobj [("name", .jstr "San Antonio Spurs"),
                  ("championships", .jarr [.jstr "1999.0"])]) =
        Except.ok
          ⟨[.typeError [.key "championships", .idx 0] "int"],
           [("name", .vstr "San Antonio Spurs")], []⟩ := by
  refine ⟨?_, rfl, rfl⟩
  intro cons path s h
  simp [coerce0, intLax, parseIntStr_dot h]

/-- C8 witness: the rejection instantiated at the float-formatted string
`"1997.0"`. -/
theorem c8_witness :
    coerce0 (.int [])  [.key "draft_year"] (.jstr "1997.0") =
      .error [.typeError [.key "draft_year"] "int"] :=
  c8_theorem.1 [] [.key "draft_year"] "1997.0" (by decide)

/-- The v3 `Player` declaration with the unknown-key policy replaced by
the default one (everything else identical). -/
def v3PlayerIgnore : MDecl1 := ⟨"Player", v3Player.fields, defaultExtraPolicy⟩

/-- C5: under `extra="allow"` (the v3 `Player`), every input key not
among the declared fields is copied verbatim, without coercion, into the
extra fields bag returned alongside the record — the bag is exactly the
input entries whose keys are undeclared — and the declared fields are
validated exactly as they would be under the default policy: the same
violations and the same validated fields, just with an empty bag. -/
theorem c5_theorem :
    ∀ es out, validateModel1 v3Player [] (.jobj es) = Except.ok out →
      out.extra =
          es.filter (fun kv => !((v3Player.fields.map Prod.fst).contains kv.1)) ∧
        validateModel1 v3PlayerIgnore [] (.jobj es) =
          Except.ok ⟨out.viols, out.fields, []⟩ := by
  intro es out h
  cases hf : validateFields1 [] es v3Player.fields with
  | error e =>
    rw [validateModel1] at h
    rw [hf] at h
    cases h
  | ok r =>
    obtain ⟨vs, fs⟩ := r
    rw [validateModel1] at h
    rw [hf] at h
    simp only [extraOut, Except.bind, bind] at h
    have hout : out =
        ⟨vs ++ [], fs,
         es.filter (fun kv => !((v3Player.fields.map Prod.fst).contains kv.1))⟩ := by
      cases h
      rfl
    subst hout
    refine ⟨rfl, ?_⟩
    rw [validateModel1]
    show (do
      let (vs2, fs2) ← validateFields1 [] es v3PlayerIgnore.fields
      let (evs, ex) := extraOut v3PlayerIgnore.extra [] (v3PlayerIgnore.fields.map Prod.fst) es
      Except.ok (⟨vs2 ++ evs, fs2, ex⟩ : MOut)) = Except.ok ⟨vs ++ [], fs, []⟩
    rw [show v3PlayerIgnore.fields = v3Player.fields from rfl, hf]
    rfl

/-- C5 witness: on the v3 sample payload the extra fields bag is exactly
the undeclared `height` entry, verbatim, and the default-policy variant
validates the declared fields identically with an empty bag. -/
theorem c5_witness :
    ([("height", JValue.jstr "6 feet 11 inches")] : List (String × JValue)) =
        v3SchemaEntries.filter
          (fun kv => !((v3Player.fields.map Prod.fst).contains kv.1)) ∧
      validateModel1 v3PlayerIgnore [] (.jobj v3SchemaEntries) =
        Except.ok ⟨[], v3Fields, []⟩ :=
  c5_theorem v3SchemaEntries
    ⟨[], v3Fields, [("height", .jstr "6 feet 11 inches")]⟩ rfl

/-- Lookup in a concatenation: a hit in the first part wins. -/
theorem lookupKey_append_some {α : Type} {a : List (String × α)}
    (b : List (String × α)) {n : String} {v : α}
    (h : lookupKey a n = some v) : lookupKey (a ++ b) n = some v := by
  induction a with
  | nil => cases h
  | cons kv rest ih =>
    obtain ⟨k, w⟩ := kv
    by_cases hk : k = n
    · simp only [lookupKey, if_pos hk] at h ⊢
      exact h
    · simp only [lookupKey, if_neg hk] at h ⊢
      exact ih h

/-- Lookup in a concatenation: a miss in the first part falls through. -/
theorem lookupKey_append_none {α : Type} {a : List (String × α)}
    (b : List (String × α)) {n : String}
    (h : lookupKey a n = none) : lookupKey (a ++ b) n = lookupKey b n := by
  induction a with
  | nil => rfl
  | cons kv rest ih =>
    obtain ⟨k, w⟩ := kv
    by_cases hk : k = n
    · simp only [lookupKey, if_pos hk] at h
      cases h
    · simp only [lookupKey, if_neg hk] at h ⊢
      exact ih h

/-- A field contributes to the record only under its own name, and at
most one entry. -/
theorem validateField1_fields_shape {p : VPath} {n : String} {fd : FDecl1}
    {obj : List (String × JValue)} {vs : List Violation}
    {fs : List (String × Value)}
    (h : validateField1 p n fd obj = .ok (vs, fs)) :
    fs = [] ∨ ∃ v, fs = [(n, v)] := by
  unfold validateField1 at h
  split at h
  · split at h
    · cases h
      exact Or.inr ⟨_, rfl⟩
    · cases h
      exact Or.inl rfl
  · next raw heq =>
    cases hc : coerce1 fd.ty (p ++ [PathItem.key n]) raw with
    | error e =>
      rw [hc] at h
      cases h
    | ok c =>
      rw [hc] at h
      cases c with
      | error cvs =>
        simp only [Except.bind, bind] at h
        cases h
        exact Or.inl rfl
      | ok v =>
        simp only [Except.bind, bind] at h
        cases hr : runValidators (p ++ [PathItem.key n]) v fd.validators with
        | error exc => rw [hr] at h; cases h
        | ok rvs =>
          rw [hr] at h
          cases rvs with
          | nil => cases h; exact Or.inr ⟨v, rfl⟩
          | cons a rest => cases h; exact Or.inl rfl

/-- Inversion for validating a nonempty field list: the head field and
the remaining fields each validate without crash, and violations and
record entries are concatenated in order. -/
theorem validateFields1_cons_inv {p : VPath} {obj : List (String × JValue)}
    {m : String} {gd : FDecl1} {rest : List (String × FDecl1)}
    {vs : List Violation} {fs : List (String × Value)}
    (h : validateFields1 p obj ((m, gd) :: rest) = .ok (vs, fs)) :
    ∃ avs afs bvs bfs, validateField1 p m gd obj = .ok (avs, afs) ∧
      validateFields1 p obj rest = .ok (bvs, bfs) ∧
      vs = avs ++ bvs ∧ fs = afs ++ bfs := by
  unfold validateFields1 at h
  cases ha : validateField1 p m gd obj with
  | error e => rw [ha] at h; cases h
  | ok a =>
    obtain ⟨avs, afs⟩ := a
    rw [ha] at h
    simp only [Except.bind, bind] at h
    cases hb : validateFields1 p obj rest with
    | error e => rw [hb] at h; cases h
    | ok b =>
      obtain ⟨bvs, bfs⟩ := b
      rw [hb] at h
      simp only [Except.bind, bind] at h
      cases h
      exact ⟨avs, afs, bvs, bfs, rfl, rfl, rfl, rfl⟩

/-- A declared field that is absent from the input and carries a default
ends up in the validated record bound to exactly that default value
(assuming the declared names are duplicate-free). -/
theorem validateFields1_dflt {ds : List (String × FDecl1)} :
    ∀ {p : VPath} {obj : List (String × JValue)} {n : String} {fd : FDecl1}
      {dv : Value} {vs : List Violation} {fs : List (String × Value)},
      nodupKeysB (ds.map Prod.fst) = true → (n, fd) ∈ ds →
      fd.dflt = some dv → lookupKey obj n = none →
      validateFields1 p obj ds = .ok (vs, fs) →
      lookupKey fs n = some dv := by
  induction ds with
  | nil =>
    intro _ _ _ _ _ _ _ _ hmem _ _ _
    cases hmem
  | cons hd rest ih =>
    obtain ⟨m, gd⟩ := hd
    intro p obj n fd dv vs fs hnd hmem hdflt hlook hval
    obtain ⟨avs, afs, bvs, bfs, ha, hb, hvs, hfs⟩ := validateFields1_cons_inv hval
    simp only [List.map_cons, nodupKeysB, Bool.and_eq_true,
      Bool.not_eq_true'] at hnd
    obtain ⟨hmnotin, hndrest⟩ := hnd
    rcases List.mem_cons.mp hmem with hhead | htail
    · injection hhead with h1 h2
      subst h1
      subst h2
      unfold validateField1 at ha
      rw [hlook, hdflt] at ha
      cases ha
      subst hfs
      simp [lookupKey]
    · have hmn : m ≠ n := by
        intro hmn
        subst hmn
        have hm : m ∈ rest.map Prod.fst := List.mem_map_of_mem Prod.fst htail
        have hc : (rest.map Prod.fst).contains m = true :=
          List.elem_eq_true_of_mem hm
        rw [hmnotin] at hc
        exact absurd hc (by decide)
      rcases validateField1_fields_shape ha with hafs | ⟨v, hafs⟩
      · subst hafs
        subst hfs
        exact ih hndrest htail hdflt hlook hb
      · subst hafs
        subst hfs
        show lookupKey ((m, v) :: bfs) n = some dv
        simp only [lookupKey, if_neg hmn]
        exact ih hndrest htail hdflt hlook hb

/-- C9: in the v3 model, whenever the `dob` key is absent and validation
returns a result, the record's `dob` field is exactly the declared
default `None` — used as-is, never coerced or checked — and `None` does
not conform to the declared type `date`. -/
theorem c9_theorem :
    ∀ es out, lookupKey es "dob" = none →
      validateModel1 v3Player [] (.jobj es) = Except.ok out →
      lookupKey out.fields "dob" = some Value.vnone ∧
        passes0 FType0.date Value.vnone = false := by
  intro es out hdob h
  refine ⟨?_, rfl⟩
  cases hf : validateFields1 [] es v3Player.fields with
  | error e => rw [validateModel1, hf] at h; cases h
  | ok r =>
    obtain ⟨vs, fs⟩ := r
    rw [validateModel1, hf] at h
    simp only [Except.bind, bind] at h
    have hfields : out.fields = fs := by cases h; rfl
    rw [hfields]
    have hmem :
        ("dob", (⟨FType1.base FType0.date, some Value.vnone, []⟩ : FDecl1)) ∈
          v3Player.fields :=
      List.mem_cons_of_mem _ (List.mem_cons_of_mem _
        (List.mem_cons_of_mem _ (List.mem_cons_of_mem _
          (List.mem_cons_self _ _))))
    exact @validateFields1_dflt v3Player.fields [] es "dob"
      ⟨FType1.base FType0.date, some Value.vnone, []⟩ Value.vnone vs fs
      (by rfl) hmem (by rfl) hdob hf

/-- C9 witness: on the v3 sample payload (no `dob` key) validation
succeeds and the record's `dob` is `None`. -/
theorem c9_witness :
    lookupKey v3Fields "dob" = some Value.vnone ∧
      passes0 FType0.date Value.vnone = false :=
  have h := c9_theorem v3SchemaEntries
    ⟨[], v3Fields, [("height", .jstr "6 feet 11 inches")]⟩ rfl rfl
  ⟨h.1, h.2⟩


/-- A path equal to the base extends the base. -/
theorem path_self {p : VPath} {viol : Violation} (h : viol.path = p) :
    ∃ r, viol.path = p ++ r :=
  ⟨[], by rw [h, List.append_nil]⟩

/-- Numeric-constraint violations are located exactly at the field's
path. -/
theorem intConsViols_path {p : VPath} {n : Int} {cons : List NumCons}
    {viol : Violation} (h : viol ∈ intConsViols p n cons) :
    viol.path = p := by
  obtain ⟨c, -, rfl⟩ := List.mem_map.mp h
  cases c <;> rfl

/-- Numeric-constraint violations are located exactly at the field's
path (float version). -/
theorem floatConsViols_path {p : VPath} {q : Rat} {cons : List NumCons}
    {viol : Violation} (h : viol ∈ floatConsViols p q cons) :
    viol.path = p := by
  obtain ⟨c, -, rfl⟩ := List.mem_map.mp h
  cases c <;> rfl

/-- Sequence combination only reports violations coming from some
element's result. -/
theorem combineElems_errs {rs : List (Except (List Violation) Value)}
    {viol : Violation} (h : viol ∈ errsOf (combineElems rs)) :
    ∃ r ∈ rs, viol ∈ errsOf r := by
  unfold combineElems at h
  split at h
  · simp only [errsOf] at h
    cases h
  · simp only [errsOf] at h
    exact List.mem_flatMap.mp h

/-- Each element result of `elems0` is the coercion of some element at
an indexed extension of the base path. -/
theorem elems0_mem {f : VPath → JValue → Except (List Violation) Value}
    {path : VPath} :
    ∀ {i : Nat} {xs : List JValue} {r : Except (List Violation) Value},
      r ∈ elems0 f path i xs →
      ∃ j x, r = f (path ++ [.idx j]) x := by
  intro i xs
  induction xs generalizing i with
  | nil => intro r hr; cases hr
  | cons x rest ih =>
    intro r hr
    rcases List.mem_cons.mp hr with h1 | h2
    · exact ⟨i, x, h1⟩
    · exact ih h2

/-- Every violation reported by a leaf coercion has a path extending the
field's path. -/
theorem coerce0_path {t : FType0} :
    ∀ {p : VPath} {v : JValue} {viol : Violation},
      viol ∈ errsOf (coerce0 t p v) → ∃ r, viol.path = p ++ r := by
  induction t with
  | int cons =>
    intro p v viol h
    unfold coerce0 at h
    split at h
    · split at h
      · simp only [errsOf] at h; cases h
      · simp only [errsOf] at h
        exact path_self (intConsViols_path h)
    · simp only [errsOf, List.mem_singleton] at h
      subst h
      exact path_self rfl
  | float cons =>
    intro p v viol h
    unfold coerce0 at h
    split at h
    · split at h
      · simp only [errsOf] at h; cases h
      · simp only [errsOf] at h
        exact path_self (floatConsViols_path h)
    · simp only [errsOf, List.mem_singleton] at h
      subst h
      exact path_self rfl
  | str =>
    intro p v viol h
    unfold coerce0 at h
    split at h
    · simp only [errsOf] at h; cases h
    · simp only [errsOf, List.mem_singleton] at h
      subst h
      exact path_self rfl
  | bool =>
    intro p v viol h
    unfold coerce0 at h
    split at h
    · simp only [errsOf] at h; cases h
    · simp only [errsOf, List.mem_singleton] at h
      subst h
      exact path_self rfl
  | date =>
    intro p v viol h
    unfold coerce0 at h
    split at h
    · simp only [errsOf] at h; cases h
    · split at h
      · simp only [errsOf] at h; cases h
      · simp only [errsOf, List.mem_singleton] at h
        subst h
        exact path_self rfl
    · simp only [errsOf, List.mem_singleton] at h
      subst h
      exact path_self rfl
  | datetime =>
    intro p v viol h
    unfold coerce0 at h
    split at h
    · simp only [errsOf] at h; cases h
    · split at h
      · simp only [errsOf] at h; cases h
      · simp only [errsOf, List.mem_singleton] at h
        subst h
        exact path_self rfl
    · simp only [errsOf, List.mem_singleton] at h
      subst h
      exact path_self rfl
  | lit opts =>
    intro p v viol h
    unfold coerce0 at h
    split at h
    · split at h
      · simp only [errsOf] at h; cases h
      · simp only [errsOf, List.mem_singleton] at h
        subst h
        exact path_self rfl
    · simp only [errsOf, List.mem_singleton] at h
      subst h
      exact path_self rfl
  | list t ih =>
    intro p v viol h
    unfold coerce0 at h
    split at h
    · obtain ⟨r, hr, hv⟩ := combineElems_errs h
      obtain ⟨j, x, rfl⟩ := elems0_mem hr
      obtain ⟨r2, hr2⟩ := ih hv
      exact ⟨[.idx j] ++ r2, by rw [hr2, List.append_assoc]⟩
    · simp only [errsOf, List.mem_singleton] at h
      subst h
      exact path_self rfl

/-- Violations produced by a field's custom validators sit exactly at
the field's path. -/
theorem runValidators_path :
    ∀ {l : List FieldValidator} {p : VPath} {v : Value}
      {vs : List Violation} {viol : Violation},
      runValidators p v l = .ok vs → viol ∈ vs → viol.path = p := by
  intro l
  induction l with
  | nil =>
    intro p v vs viol h hm
    cases h
    cases hm
  | cons fv rest ih =>
    intro p v vs viol h hm
    unfold runValidators at h
    split at h
    · exact ih h hm
    · cases h
      rw [List.mem_singleton] at hm
      subst hm
      rfl
    · cases h

/-- Inversion for validating a nonempty leaf field list. -/
theorem validateFields0_cons_inv {p : VPath} {obj : List (String × JValue)}
    {m : String} {gd : FDecl0} {rest : List (String × FDecl0)}
    {vs : List Violation} {fs : List (String × Value)}
    (h : validateFields0 p obj ((m, gd) :: rest) = .ok (vs, fs)) :
    ∃ avs afs bvs bfs, validateField0 p m gd obj = .ok (avs, afs) ∧
      validateFields0 p obj rest = .ok (bvs, bfs) ∧
      vs = avs ++ bvs ∧ fs = afs ++ bfs := by
  unfold validateFields0 at h
  cases ha : validateField0 p m gd obj with
  | error e => rw [ha] at h; cases h
  | ok a =>
    obtain ⟨avs, afs⟩ := a
    rw [ha] at h
    simp only [Except.bind, bind] at h
    cases hb : validateFields0 p obj rest with
    | error e => rw [hb] at h; cases h
    | ok b =>
      obtain ⟨bvs, bfs⟩ := b
      rw [hb] at h
      simp only [Except.bind, bind] at h
      cases h
      exact ⟨avs, afs, bvs, bfs, rfl, rfl, rfl, rfl⟩

/-- Every violation a leaf field reports has a path extending the
field's own path. -/
theorem validateField0_path {p : VPath} {m : String} {gd : FDecl0}
    {obj : List (String × JValue)} {avs : List Violation}
    {afs : List (String × Value)} {viol : Violation}
    (h : validateField0 p m gd obj = .ok (avs, afs)) (hm : viol ∈ avs) :
    ∃ r, viol.path = (p ++ [.key m]) ++ r := by
  unfold validateField0 at h
  split at h
  · split at h
    · cases h; cases hm
    · cases h
      rw [List.mem_singleton] at hm
      subst hm
      exact ⟨[], by rw [List.append_nil]; rfl⟩
  · next raw heq =>
    split at h
    · next cvs heqc =>
      cases h
      have hv : viol ∈ errsOf (coerce0 gd.ty (p ++ [PathItem.key m]) raw) := by
        rw [heqc]; exact hm
      exact coerce0_path hv
    · next v heqc =>
      split at h
      · cases h
      · cases h
        cases hm
      · next rvs heqr =>
        cases h
        refine ⟨[], ?_⟩
        rw [List.append_nil]
        exact runValidators_path heqr hm

/-- Every violation reported while validating the leaf fields belongs to
some declared field and extends that field's path. -/
theorem validateFields0_path {ds : List (String × FDecl0)} :
    ∀ {p : VPath} {obj : List (String × JValue)} {vs : List Violation}
      {fs : List (String × Value)} {viol : Violation},
      validateFields0 p obj ds = .ok (vs, fs) → viol ∈ vs →
      ∃ m gd, (m, gd) ∈ ds ∧ ∃ r, viol.path = (p ++ [.key m]) ++ r := by
  induction ds with
  | nil =>
    intro p obj vs fs viol h hm
    cases h
    cases hm
  | cons hd rest ih =>
    obtain ⟨m, gd⟩ := hd
    intro p obj vs fs viol h hm
    obtain ⟨avs, afs, bvs, bfs, ha, hb, rfl, rfl⟩ := validateFields0_cons_inv h
    rcases List.mem_append.mp hm with h1 | h2
    · exact ⟨m, gd, List.mem_cons_self _ _, validateField0_path ha h1⟩
    · obtain ⟨m2, gd2, hmem, hr⟩ := ih hb h2
      exact ⟨m2, gd2, List.mem_cons_of_mem _ hmem, hr⟩

/-- Unknown-field violations sit at a key extension of the model's
path. -/
theorem extraOut_path {policy : ExtraPolicy} {p : VPath}
    {declared : List String} {obj : List (String × JValue)}
    {viol : Violation}
    (h : viol ∈ (extraOut policy p declared obj).1) :
    ∃ r, viol.path = p ++ r := by
  cases policy with
  | ignore => cases h
  | allow => cases h
  | forbid =>
    obtain ⟨kv, -, rfl⟩ := List.mem_map.mp h
    exact ⟨[.key kv.1], rfl⟩

/-- Every violation reported by validating a value against a leaf model
has a path extending the model's path. -/
theorem validateModel0_path {m : MDecl0} {p : VPath} {v : JValue}
    {out : MOut} {viol : Violation}
    (h : validateModel0 m p v = .ok out) (hm : viol ∈ out.viols) :
    ∃ r, viol.path = p ++ r := by
  unfold validateModel0 at h
  split at h
  · next obj =>
    cases hf : validateFields0 p obj m.fields with
    | error e => rw [hf] at h; cases h
    | ok a =>
      obtain ⟨vs, fs⟩ := a
      rw [hf] at h
      simp only [Except.bind, bind] at h
      cases h
      rcases List.mem_append.mp hm with h1 | h2
      · obtain ⟨m2, gd2, -, r, hr⟩ := validateFields0_path hf h1
        exact ⟨[.key m2] ++ r, by rw [hr, List.append_assoc]⟩
      · exact extraOut_path h2
  · cases h
    rw [List.mem_singleton] at hm
    subst hm
    exact ⟨[], by rw [List.append_nil]; rfl⟩

/-- Each element result of `elems1` comes from coercing some element at
an indexed extension of the base path. -/
theorem elems1_mem
    {f : VPath → JValue → Except String (Except (List Violation) Value)}
    {path : VPath} :
    ∀ {i : Nat} {xs : List JValue}
      {rs : List (Except (List Violation) Value)}
      {r : Except (List Violation) Value},
      elems1 f path i xs = .ok rs → r ∈ rs →
      ∃ j x, f (path ++ [.idx j]) x = .ok r := by
  intro i xs
  induction xs generalizing i with
  | nil =>
    intro rs r h hm
    cases h
    cases hm
  | cons x rest ih =>
    intro rs r h hm
    unfold elems1 at h
    cases h0 : f (path ++ [.idx i]) x with
    | error e => rw [h0] at h; cases h
    | ok r0 =>
      rw [h0] at h
      simp only [Except.bind, bind] at h
      cases h1 : elems1 f path (i + 1) rest with
      | error e => rw [h1] at h; cases h
      | ok rs0 =>
        rw [h1] at h
        simp only [Except.bind, bind] at h
        cases h
        rcases List.mem_cons.mp hm with hh | ht
        · subst hh
          exact ⟨i, x, h0⟩
        · exact ih h1 ht

/-- Every violation reported by a player-level coercion has a path
extending the field's path. -/
theorem coerce1_path {t : FType1} :
    ∀ {p : VPath} {v : JValue} {res : Except (List Violation) Value}
      {viol : Violation},
      coerce1 t p v = .ok res → viol ∈ errsOf res →
      ∃ r, viol.path = p ++ r := by
  induction t with
  | base t0 =>
    intro p v res viol h hm
    cases h
    exact coerce0_path hm
  | nested m =>
    intro p v res viol h hm
    unfold coerce1 at h
    cases h0 : validateModel0 m p v with
    | error e => rw [h0] at h; cases h
    | ok out =>
      rw [h0] at h
      simp only [Except.bind, bind] at h
      split at h
      · cases h
        cases hm
      · cases h
        exact validateModel0_path h0 hm
  | opt t ih =>
    intro p v res viol h hm
    unfold coerce1 at h
    split at h
    · cases h
      cases hm
    · exact ih h hm
  | list t ih =>
    intro p v res viol h hm
    cases v
    case jarr xs =>
      have h2 : (do
          let rs ← elems1 (coerce1 t) p 0 xs
          Except.ok (combineElems rs)) = Except.ok res := h
      cases h1 : elems1 (coerce1 t) p 0 xs with
      | error e => rw [h1] at h2; cases h2
      | ok rs =>
        rw [h1] at h2
        simp only [Except.bind, bind] at h2
        cases h2
        obtain ⟨r, hr, hv⟩ := combineElems_errs hm
        obtain ⟨j, x, hf⟩ := elems1_mem h1 hr
        obtain ⟨r2, hr2⟩ := ih hf hv
        exact ⟨[.idx j] ++ r2, by rw [hr2, List.append_assoc]⟩
    all_goals {
      have h2 : (Except.ok (Except.error [Violation.typeError p "list"]) :
          Except String (Except (List Violation) Value)) = Except.ok res := h
      cases h2
      simp only [errsOf, List.mem_singleton] at hm
      subst hm
      exact path_self rfl }

/-- Every violation a player-level field reports has a path extending
the field's own path. -/
theorem validateField1_path {p : VPath} {m : String} {gd : FDecl1}
    {obj : List (String × JValue)} {avs : List Violation}
    {afs : List (String × Value)} {viol : Violation}
    (h : validateField1 p m gd obj = .ok (avs, afs)) (hm : viol ∈ avs) :
    ∃ r, viol.path = (p ++ [.key m]) ++ r := by
  unfold validateField1 at h
  split at h
  · split at h
    · cases h; cases hm
    · cases h
      rw [List.mem_singleton] at hm
      subst hm
      exact ⟨[], by rw [List.append_nil]; rfl⟩
  · next raw heq =>
    cases hc : coerce1 gd.ty (p ++ [PathItem.key m]) raw with
    | error e => rw [hc] at h; cases h
    | ok c =>
      rw [hc] at h
      cases c with
      | error cvs =>
        simp only [Except.bind, bind] at h
        cases h
        exact coerce1_path hc hm
      | ok v =>
        simp only [Except.bind, bind] at h
        cases hr : runValidators (p ++ [PathItem.key m]) v gd.validators with
        | error exc => rw [hr] at h; cases h
        | ok rvs =>
          rw [hr] at h
          cases rvs with
          | nil => cases h; cases hm
          | cons a rest2 =>
            cases h
            refine ⟨[], ?_⟩
            rw [List.append_nil]
            exact runValidators_path hr hm

/-- Every violation reported while validating the player-level fields
belongs to some declared field and extends that field's path. -/
theorem validateFields1_path {ds : List (String × FDecl1)} :
    ∀ {p : VPath} {obj : List (String × JValue)} {vs : List Violation}
      {fs : List (String × Value)} {viol : Violation},
      validateFields1 p obj ds = .ok (vs, fs) → viol ∈ vs →
      ∃ m gd, (m, gd) ∈ ds ∧ ∃ r, viol.path = (p ++ [.key m]) ++ r := by
  induction ds with
  | nil =>
    intro p obj vs fs viol h hm
    cases h
    cases hm
  | cons hd rest ih =>
    obtain ⟨m, gd⟩ := hd
    intro p obj vs fs viol h hm
    obtain ⟨avs, afs, bvs, bfs, ha, hb, rfl, rfl⟩ := validateFields1_cons_inv h
    rcases List.mem_append.mp hm with h1 | h2
    · exact ⟨m, gd, List.mem_cons_self _ _, validateField1_path ha h1⟩
    · obtain ⟨m2, gd2, hmem, hr⟩ := ih hb h2
      exact ⟨m2, gd2, List.mem_cons_of_mem _ hmem, hr⟩

/-- Two key-extensions of the same base path coincide only for the same
key and an empty remainder. -/
theorem path_key_distinct {p : VPath} {m n : String} {r : VPath}
    (h : (p ++ [.key m]) ++ r = p ++ [.key n]) : m = n ∧ r = [] := by
  rw [List.append_assoc] at h
  have h2 := List.append_cancel_left h
  simp only [List.singleton_append, List.cons.injEq, PathItem.key.injEq] at h2
  exact h2

/-- An absent required field contributes exactly one missing-field
violation at its path, and no other field contributes any violation at
that path: the complete violation list counts the missing violation once
and holds no type error for the same path. -/
theorem validateFields1_missing {ds : List (String × FDecl1)} :
    ∀ {p : VPath} {obj : List (String × JValue)} {n : String} {fd : FDecl1}
      {vs : List Violation} {fs : List (String × Value)},
      nodupKeysB (ds.map Prod.fst) = true → (n, fd) ∈ ds →
      fd.dflt = none → lookupKey obj n = none →
      validateFields1 p obj ds = .ok (vs, fs) →
      vs.count (.missing (p ++ [.key n])) = 1 ∧
        ∀ e, Violation.typeError (p ++ [.key n]) e ∉ vs := by
  induction ds with
  | nil =>
    intro _ _ _ _ _ _ _ hmem _ _ _
    cases hmem
  | cons hd rest ih =>
    obtain ⟨m, gd⟩ := hd
    intro p obj n fd vs fs hnd hmem hdflt hlook hval
    obtain ⟨avs, afs, bvs, bfs, ha, hb, rfl, rfl⟩ := validateFields1_cons_inv hval
    simp only [List.map_cons, nodupKeysB, Bool.and_eq_true,
      Bool.not_eq_true'] at hnd
    obtain ⟨hmnotin, hndrest⟩ := hnd
    rcases List.mem_cons.mp hmem with hhead | htail
    · injection hhead with h1 h2
      subst h1
      subst h2
      unfold validateField1 at ha
      rw [hlook, hdflt] at ha
      cases ha
      have hnotb : Violation.missing (p ++ [.key n]) ∉ bvs := by
        intro hmemb
        obtain ⟨m2, gd2, hmem2, r, hr⟩ := validateFields1_path hb hmemb
        have hpath : (p ++ [PathItem.key m2]) ++ r = p ++ [PathItem.key n] := by
          rw [← hr]; rfl
        obtain ⟨rfl, -⟩ := path_key_distinct hpath
        have hin : m2 ∈ rest.map Prod.fst := List.mem_map_of_mem Prod.fst hmem2
        have hc : (rest.map Prod.fst).contains m2 = true :=
          List.elem_eq_true_of_mem hin
        rw [hmnotin] at hc
        exact absurd hc (by decide)
      constructor
      · rw [List.count_append]
        rw [List.count_eq_zero.mpr hnotb]
        simp [List.count_cons]
      · intro e hmeme
        rcases List.mem_append.mp hmeme with h1 | h2
        · rw [List.mem_singleton] at h1
          cases h1
        · obtain ⟨m2, gd2, hmem2, r, hr⟩ := validateFields1_path hb h2
          have hpath : (p ++ [PathItem.key m2]) ++ r = p ++ [PathItem.key n] := by
            rw [← hr]; rfl
          obtain ⟨rfl, -⟩ := path_key_distinct hpath
          have hin : m2 ∈ rest.map Prod.fst := List.mem_map_of_mem Prod.fst hmem2
          have hc : (rest.map Prod.fst).contains m2 = true :=
            List.elem_eq_true_of_mem hin
          rw [hmnotin] at hc
          exact absurd hc (by decide)
    · have hmn : m ≠ n := by
        intro hmn
        subst hmn
        have hin : m ∈ rest.map Prod.fst := List.mem_map_of_mem Prod.fst htail
        have hc : (rest.map Prod.fst).contains m = true :=
          List.elem_eq_true_of_mem hin
        rw [hmnotin] at hc
        exact absurd hc (by decide)
      have hnota : ∀ viol : Violation, viol.path = p ++ [.key n] → viol ∉ avs := by
        intro viol hvp hmema
        obtain ⟨r, hr⟩ := validateField1_path ha hmema
        rw [hvp] at hr
        obtain ⟨rfl, -⟩ := path_key_distinct hr.symm
        exact hmn rfl
      obtain ⟨hcount, hte⟩ := ih hndrest htail hdflt hlook hb
      constructor
      · rw [List.count_append]
        rw [List.count_eq_zero.mpr (hnota (Violation.missing (p ++ [PathItem.key n])) rfl)]
        rw [hcount]
      · intro e hmeme
        rcases List.mem_append.mp hmeme with h1 | h2
        · exact hnota (Violation.typeError (p ++ [PathItem.key n]) e) rfl h1
        · exact hte e h2

/-- Every v1 field is required: none declares a default. -/
theorem v1Player_no_dflt : ∀ x ∈ v1Player.fields, x.2.dflt = none := by
  intro x hx
  simp only [v1Player, List.mem_cons, List.not_mem_nil, or_false] at hx
  rcases hx with rfl | rfl | rfl | rfl | rfl | rfl | rfl | rfl | rfl <;> rfl

/-- C6: for the v1 `Player`, any declared field that is absent from the
input yields exactly one missing-field violation at that field's path in
the result, and no type-error violation at the same path. -/
theorem c6_theorem :
    ∀ n fd obj out, (n, fd) ∈ v1Player.fields → lookupKey obj n = none →
      validateModel1 v1Player [] (.jobj obj) = Except.ok out →
      out.viols.count (.missing [.key n]) = 1 ∧
        ∀ e, Violation.typeError [.key n] e ∉ out.viols := by
  intro n fd obj out hmem hlook h
  cases hf : validateFields1 [] obj v1Player.fields with
  | error e => rw [validateModel1, hf] at h; cases h
  | ok r =>
    obtain ⟨vs, fs⟩ := r
    rw [validateModel1, hf] at h
    simp only [Except.bind, bind] at h
    have hout : out = ⟨vs ++ [], fs, []⟩ := by cases h; rfl
    subst hout
    have hdflt : fd.dflt = none := v1Player_no_dflt (n, fd) hmem
    have hmain := validateFields1_missing (by rfl) hmem hdflt hlook hf
    simpa using hmain

/-- The record the v1 `Player` builds from the sample payload while
`positions_played` is missing. -/
def v1PartialFields : List (String × Value) :=
  [("id", .vint 1),
   ("name", .vstr "Tim Duncan"),
   ("teams", .vlist
     [.vrec
       [("name", .vstr "San Antonio Spurs"),
        ("championships", .vlist
          [.vint 1999, .vint 2003, .vint 2005, .vint 2007, .vint 2014])]]),
   ("career_stats", .vrec
     [("ppg", .vfloat 19),
      ("rpg", .vfloat (mkRat 54 5)),
      ("apg", .vfloat 3)]),
   ("dob", .vdate ⟨1976, 4, 25⟩),
   ("draft_year", .vint 1997),
   ("is_active", .vbool false),
   ("last_updated", .vdatetime ⟨⟨2023, 10, 10⟩, 0, 0, 0, ['0', '0', '0', '0']⟩)]

/-- C6 witness: on the v1 sample payload, where `positions_played` is
absent, the violation list counts its missing-field violation exactly
once and holds no type error at that path. -/
theorem c6_witness :
    ([Violation.missing [PathItem.key "positions_played"]].count
        (Violation.missing [PathItem.key "positions_played"]) = 1) ∧
      Violation.typeError [PathItem.key "positions_played"] "int" ∉
        [Violation.missing [PathItem.key "positions_played"]] :=
  have h := c6_theorem "positions_played"
    ⟨.list (.base .str), none, []⟩ v1SchemaEntries
    ⟨[.missing [.key "positions_played"]], v1PartialFields, []⟩
    (List.mem_cons_of_mem _ (List.mem_cons_of_mem _ (List.mem_cons_of_mem _
      (List.mem_cons_of_mem _ (List.mem_cons_of_mem _ (List.mem_cons_of_mem _
        (List.mem_cons_self _ _)))))))
    rfl rfl
  ⟨h.1, h.2 "int"⟩

/-- A failed sequence combination carries at least one violation. -/
theorem combineElems_error_ne_nil {rs : List (Except (List Violation) Value)}
    {vs : List Violation} (h : combineElems rs = .error vs) : vs ≠ [] := by
  unfold combineElems at h
  split at h
  · cases h
  · next hne =>
    cases h
    exact hne

/-- A failed leaf coercion carries at least one violation. -/
theorem coerce0_error_ne_nil {t : FType0} :
    ∀ {p : VPath} {v : JValue} {vs : List Violation},
      coerce0 t p v = .error vs → vs ≠ [] := by
  induction t with
  | int cons =>
    intro p v vs h
    unfold coerce0 at h
    split at h
    · split at h
      · cases h
      · next hne => cases h; exact hne
    · cases h; simp
  | float cons =>
    intro p v vs h
    unfold coerce0 at h
    split at h
    · split at h
      · cases h
      · next hne => cases h; exact hne
    · cases h; simp
  | str =>
    intro p v vs h
    unfold coerce0 at h
    split at h
    · cases h
    · cases h; simp
  | bool =>
    intro p v vs h
    unfold coerce0 at h
    split at h
    · cases h
    · cases h; simp
  | date =>
    intro p v vs h
    unfold coerce0 at h
    split at h
    · cases h
    · split at h
      · cases h
      · cases h; simp
    · cases h; simp
  | datetime =>
    intro p v vs h
    unfold coerce0 at h
    split at h
    · cases h
    · split at h
      · cases h
      · cases h; simp
    · cases h; simp
  | lit opts =>
    intro p v vs h
    unfold coerce0 at h
    split at h
    · split at h
      · cases h
      · cases h; simp
    · cases h; simp
  | list t ih =>
    intro p v vs h
    unfold coerce0 at h
    split at h
    · exact combineElems_error_ne_nil h
    · cases h; simp

/-- A failed player-level coercion carries at least one violation. -/
theorem coerce1_error_ne_nil {t : FType1} :
    ∀ {p : VPath} {v : JValue} {vs : List Violation},
      coerce1 t p v = .ok (.error vs) → vs ≠ [] := by
  induction t with
  | base t0 =>
    intro p v vs h
    cases h0 : coerce0 t0 p v with
    | error evs =>
      unfold coerce1 at h
      rw [h0] at h
      cases h
      exact coerce0_error_ne_nil h0
    | ok w =>
      unfold coerce1 at h
      rw [h0] at h
      cases h
  | nested m =>
    intro p v vs h
    unfold coerce1 at h
    cases h0 : validateModel0 m p v with
    | error e => rw [h0] at h; cases h
    | ok out =>
      rw [h0] at h
      simp only [Except.bind, bind] at h
      split at h
      · cases h
      · next hne =>
        cases h
        exact hne
  | opt t ih =>
    intro p v vs h
    unfold coerce1 at h
    split at h
    · cases h
    · exact ih h
  | list t ih =>
    intro p v vs h
    cases v
    case jarr xs =>
      have h2 : (do
          let rs ← elems1 (coerce1 t) p 0 xs
          Except.ok (combineElems rs)) =
            Except.ok (Except.error vs : Except (List Violation) Value) := h
      cases h1 : elems1 (coerce1 t) p 0 xs with
      | error e => rw [h1] at h2; cases h2
      | ok rs =>
        rw [h1] at h2
        simp only [Except.bind, bind] at h2
        cases h2' : combineElems rs with
        | error evs =>
          rw [h2'] at h2
          cases h2
          exact combineElems_error_ne_nil h2'
        | ok w => rw [h2'] at h2; cases h2
    all_goals {
      have h2 : (Except.ok (Except.error [Violation.typeError p "list"]) :
          Except String (Except (List Violation) Value)) =
            Except.ok (Except.error vs) := h
      cases h2
      simp }

/-- A field that reports no violations contributes exactly one validated
entry under its own name. -/
theorem validateField1_success_shape {p : VPath} {n : String} {fd : FDecl1}
    {obj : List (String × JValue)} {afs : List (String × Value)}
    (h : validateField1 p n fd obj = .ok ([], afs)) :
    ∃ v, afs = [(n, v)] := by
  unfold validateField1 at h
  split at h
  · split at h
    · cases h
      exact ⟨_, rfl⟩
    · simp at h
  · next raw heq =>
    cases hc : coerce1 fd.ty (p ++ [PathItem.key n]) raw with
    | error e => rw [hc] at h; cases h
    | ok c =>
      rw [hc] at h
      cases c with
      | error cvs =>
        simp only [Except.bind, bind] at h
        have h2 : cvs = [] ∧ afs = [] := by
          cases h
          exact ⟨rfl, rfl⟩
        exact absurd h2.1 (coerce1_error_ne_nil hc)
      | ok v =>
        simp only [Except.bind, bind] at h
        cases hr : runValidators (p ++ [PathItem.key n]) v fd.validators with
        | error exc => rw [hr] at h; cases h
        | ok rvs =>
          rw [hr] at h
          cases rvs with
          | nil =>
            cases h
            exact ⟨v, rfl⟩
          | cons a rest2 => simp at h

/-- Each declared field's isolated violations embed, in order, into the
collected violation list of the whole field pass. -/
theorem validateFields1_sublist {ds : List (String × FDecl1)} :
    ∀ {p : VPath} {obj : List (String × JValue)} {vs : List Violation}
      {fs : List (String × Value)} {n : String} {fd : FDecl1}
      {fvs : List Violation} {ffs : List (String × Value)},
      validateFields1 p obj ds = .ok (vs, fs) → (n, fd) ∈ ds →
      validateField1 p n fd obj = .ok (fvs, ffs) →
      List.Sublist fvs vs := by
  induction ds with
  | nil =>
    intro _ _ _ _ _ _ _ _ _ hmem _
    cases hmem
  | cons hd rest ih =>
    obtain ⟨m, gd⟩ := hd
    intro p obj vs fs n fd fvs ffs hval hmem hfield
    obtain ⟨avs, afs, bvs, bfs, ha, hb, rfl, rfl⟩ := validateFields1_cons_inv hval
    rcases List.mem_cons.mp hmem with hhead | htail
    · injection hhead with h1 h2
      subst h1
      subst h2
      rw [hfield] at ha
      injection ha with ha2
      injection ha2 with hav haf
      subst hav
      exact List.sublist_append_left fvs bvs
    · exact (ih hb htail hfield).trans (List.sublist_append_right avs bvs)

/-- When the whole field pass reports no violations, every declared
field validated cleanly and its value is in the record under its name. -/
theorem validateFields1_success_mem {ds : List (String × FDecl1)} :
    ∀ {p : VPath} {obj : List (String × JValue)}
      {fs : List (String × Value)} {n : String} {fd : FDecl1},
      validateFields1 p obj ds = .ok ([], fs) → (n, fd) ∈ ds →
      ∃ v, (n, v) ∈ fs ∧ validateField1 p n fd obj = .ok ([], [(n, v)]) := by
  induction ds with
  | nil =>
    intro _ _ _ _ _ _ hmem
    cases hmem
  | cons hd rest ih =>
    obtain ⟨m, gd⟩ := hd
    intro p obj fs n fd hval hmem
    obtain ⟨avs, afs, bvs, bfs, ha, hb, hnil, rfl⟩ := validateFields1_cons_inv hval
    obtain ⟨hanil, hbnil⟩ := List.append_eq_nil.mp hnil.symm
    subst hanil
    subst hbnil
    rcases List.mem_cons.mp hmem with hhead | htail
    · injection hhead with h1 h2
      subst h1
      subst h2
      obtain ⟨v, rfl⟩ := validateField1_success_shape ha
      exact ⟨v, List.mem_append_left _ (List.mem_singleton.mpr rfl), ha⟩
    · obtain ⟨v, hvmem, hfield⟩ := ih hb htail
      exact ⟨v, List.mem_append_right _ hvmem, hfield⟩

/-- Inversion of a `validate` call that returned a validation error. -/
theorem validate_invalid_inv {m : MDecl1} {v : JValue} {vs : List Violation}
    (h : validate m v = Except.ok (.invalid vs)) :
    ∃ out, validateModel1 m [] v = .ok out ∧ out.viols = vs ∧ vs ≠ [] := by
  unfold validate at h
  cases hm : validateModel1 m [] v with
  | error e => rw [hm] at h; cases h
  | ok out =>
    rw [hm] at h
    simp only [Except.bind, bind] at h
    split at h
    · cases h
    · next hne =>
      cases h
      exact ⟨out, rfl, rfl, hne⟩

/-- Inversion of a `validate` call that returned a validated record. -/
theorem validate_validated_inv {m : MDecl1} {v : JValue}
    {fs : List (String × Value)} {ex : List (String × JValue)}
    (h : validate m v = Except.ok (.validated fs ex)) :
    ∃ out, validateModel1 m [] v = .ok out ∧ out.viols = [] ∧
      out.fields = fs ∧ out.extra = ex := by
  unfold validate at h
  cases hm : validateModel1 m [] v with
  | error e => rw [hm] at h; cases h
  | ok out =>
    rw [hm] at h
    simp only [Except.bind, bind] at h
    split at h
    · next heq =>
      cases h
      exact ⟨out, rfl, heq, rfl, rfl⟩
    · cases h

/-- Inversion of validating a mapping against a player-level model. -/
theorem validateModel1_jobj_inv {m : MDecl1} {p : VPath}
    {obj : List (String × JValue)} {out : MOut}
    (h : validateModel1 m p (.jobj obj) = .ok out) :
    ∃ vs fs, validateFields1 p obj m.fields = .ok (vs, fs) ∧
      out = ⟨vs ++ (extraOut m.extra p (m.fields.map Prod.fst) obj).1, fs,
             (extraOut m.extra p (m.fields.map Prod.fst) obj).2⟩ := by
  rw [validateModel1] at h
  cases hf : validateFields1 p obj m.fields with
  | error e => rw [hf] at h; cases h
  | ok r =>
    obtain ⟨vs, fs⟩ := r
    rw [hf] at h
    simp only [Except.bind, bind] at h
    cases h
    exact ⟨vs, fs, rfl, rfl⟩

/-- C3 counterexample: the claim says every input with at least one
violation gets back a Validation Error carrying the complete violation
list.  On the sample payload with name `"Tim  Duncan"` and `draft_year =
1920`, the `draft_year` field on its own has a constraint violation, yet
`validate` raises `IndexError` out of the capitalization validator
instead of returning any Validation Error. -/
theorem c3_counterexample :
    validateField1 [] "draft_year" ⟨.base (.int [.ge 1949]), none, []⟩
        (v2Entries "Tim  Duncan" 1920) =
      Except.ok
        ([.constraintViolation [.key "draft_year"] "greater_than_equal"
            (some 1949)], []) ∧
      validate v2Player (.jobj (v2Entries "Tim  Duncan" 1920)) =
        Except.error "IndexError" :=
  ⟨rfl, rfl⟩

/-- C3 amended: whenever `validate` on the v2 `Player` returns (rather
than raising from a custom validator), it collects every violation
before failing and is all-or-nothing: a Validation Error is nonempty and
contains each declared field's isolated violations as an ordered
sublist, and a returned record contains a cleanly validated value for
every declared field — never a partially validated record. -/
theorem c3_theorem :
    (∀ obj vs, validate v2Player (.jobj obj) = Except.ok (.invalid vs) →
      vs ≠ [] ∧
        ∀ n fd fvs ffs, (n, fd) ∈ v2Player.fields →
          validateField1 [] n fd obj = .ok (fvs, ffs) →
          List.Sublist fvs vs) ∧
      (∀ obj fs ex,
        validate v2Player (.jobj obj) = Except.ok (.validated fs ex) →
        ∀ n fd, (n, fd) ∈ v2Player.fields →
          ∃ v, (n, v) ∈ fs ∧ validateField1 [] n fd obj = .ok ([], [(n, v)])) := by
  constructor
  · intro obj vs h
    obtain ⟨out, hm, hviols, hne⟩ := validate_invalid_inv h
    obtain ⟨fvs0, fs0, hf, hout⟩ := validateModel1_jobj_inv hm
    have hex : extraOut v2Player.extra [] (v2Player.fields.map Prod.fst) obj =
        ([], []) := rfl
    rw [hex] at hout
    subst hout
    simp only [List.append_nil] at hviols
    subst hviols
    refine ⟨hne, ?_⟩
    intro n fd fvs ffs hmem hfield
    exact validateFields1_sublist hf hmem hfield
  · intro obj fs ex h
    obtain ⟨out, hm, hviols, hfields, -⟩ := validate_validated_inv h
    obtain ⟨fvs0, fs0, hf, hout⟩ := validateModel1_jobj_inv hm
    have hex : extraOut v2Player.extra [] (v2Player.fields.map Prod.fst) obj =
        ([], []) := rfl
    rw [hex] at hout
    subst hout
    simp only [List.append_nil] at hviols
    subst hviols
    intro n fd hmem
    subst hfields
    exact validateFields1_success_mem hf hmem

/-- C3 witness: on the sample payload with `draft_year = 1920` (and the
well-formed name), the returned violation list is nonempty and the
`draft_year` field's isolated violation embeds into it. -/
theorem c3_witness :
    ([Violation.constraintViolation [PathItem.key "draft_year"]
        "greater_than_equal" (some 1949)] : List Violation) ≠ [] ∧
      List.Sublist
        [Violation.constraintViolation [PathItem.key "draft_year"]
          "greater_than_equal" (some 1949)]
        [Violation.constraintViolation [PathItem.key "draft_year"]
          "greater_than_equal" (some 1949)] :=
  have h := c3_theorem.1 (v2Entries "Tim Duncan" 1920)
    [.constraintViolation [.key "draft_year"] "greater_than_equal" (some 1949)]
    rfl
  ⟨h.1, h.2 "draft_year" ⟨.base (.int [.ge 1949]), none, []⟩
    [.constraintViolation [.key "draft_year"] "greater_than_equal" (some 1949)]
    []
    (List.mem_cons_of_mem _ (List.mem_cons_of_mem _ (List.mem_cons_of_mem _
      (List.mem_cons_of_mem _ (List.mem_cons_of_mem _
        (List.mem_cons_self _ _))))))
    rfl⟩

/-- No integer-constraint violations exactly when all constraints
hold. -/
theorem intConsViols_nil {p : VPath} {n : Int} {cons : List NumCons} :
    intConsViols p n cons = [] ↔ cons.all (intConsOk n) = true := by
  unfold intConsViols
  rw [List.map_eq_nil_iff, List.filter_eq_nil_iff, List.all_eq_true]
  constructor
  · intro h c hc
    have := h c hc
    simpa using this
  · intro h c hc
    simpa using h c hc

/-- No float-constraint violations exactly when all constraints hold. -/
theorem floatConsViols_nil {p : VPath} {q : Rat} {cons : List NumCons} :
    floatConsViols p q cons = [] ↔ cons.all (floatConsOk q) = true := by
  unfold floatConsViols
  rw [List.map_eq_nil_iff, List.filter_eq_nil_iff, List.all_eq_true]
  constructor
  · intro h c hc
    have := h c hc
    simpa using this
  · intro h c hc
    simpa using h c hc

/-- Inversion of a successful sequence combination. -/
theorem combineElems_ok_inv {rs : List (Except (List Violation) Value)}
    {val : Value} (h : combineElems rs = .ok val) :
    val = .vlist (rs.map valOf) ∧ rs.flatMap errsOf = [] := by
  unfold combineElems at h
  split at h
  · next hnil =>
    cases h
    exact ⟨rfl, hnil⟩
  · cases h

/-- A successful leaf coercion produces a value conforming to the
declared type, constraints included. -/
theorem coerce0_passes {t : FType0} :
    ∀ {p : VPath} {v : JValue} {val : Value},
      coerce0 t p v = .ok val → passes0 t val = true := by
  induction t with
  | int cons =>
    intro p v val h
    unfold coerce0 at h
    split at h
    · split at h
      · next hnil =>
        cases h
        simpa [passes0] using intConsViols_nil.mp hnil
      · cases h
    · cases h
  | float cons =>
    intro p v val h
    unfold coerce0 at h
    split at h
    · split at h
      · next hnil =>
        cases h
        simpa [passes0] using floatConsViols_nil.mp hnil
      · cases h
    · cases h
  | str =>
    intro p v val h
    unfold coerce0 at h
    split at h
    · cases h; rfl
    · cases h
  | bool =>
    intro p v val h
    unfold coerce0 at h
    split at h
    · cases h; rfl
    · cases h
  | date =>
    intro p v val h
    unfold coerce0 at h
    split at h
    · cases h; rfl
    · split at h
      · cases h; rfl
      · cases h
    · cases h
  | datetime =>
    intro p v val h
    unfold coerce0 at h
    split at h
    · cases h; rfl
    · split at h
      · cases h; rfl
      · cases h
    · cases h
  | lit opts =>
    intro p v val h
    unfold coerce0 at h
    split at h
    · split at h
      · next hin =>
        cases h
        simpa [passes0] using hin
      · cases h
    · cases h
  | list t ih =>
    intro p v val h
    unfold coerce0 at h
    split at h
    · obtain ⟨rfl, hnil⟩ := combineElems_ok_inv h
      simp only [passes0]
      rw [List.all_eq_true]
      intro x hx
      obtain ⟨r, hr, rfl⟩ := List.mem_map.mp hx
      obtain ⟨j, y, rfl⟩ := elems0_mem hr
      have herr : errsOf (coerce0 t (_ ++ [.idx j]) y) = [] :=
        List.flatMap_eq_nil_iff.mp hnil _ hr
      cases hc : coerce0 t (_ ++ [.idx j]) y with
      | error evs =>
        rw [hc] at herr
        simp only [errsOf] at herr
        exact absurd herr (coerce0_error_ne_nil hc)
      | ok w =>
        simp only [valOf]
        exact ih hc
    · cases h

/-- Combining all-successful elements yields the list value. -/
theorem combineElems_all_ok {xs : List Value} :
    combineElems (xs.map Except.ok) = .ok (.vlist xs) := by
  have hnil : (xs.map Except.ok).flatMap errsOf = [] := by
    rw [List.flatMap_eq_nil_iff]
    intro r hr
    obtain ⟨x, -, rfl⟩ := List.mem_map.mp hr
    rfl
  unfold combineElems
  rw [if_pos hnil]
  exact congrArg (fun l => Except.ok (Value.vlist l))
    (by rw [List.map_map]
        show List.map id xs = xs
        exact List.map_id xs)

/-- Dumping and re-coercing a list of already-valid elements yields the
elements back, index by index. -/
theorem elems0_dump {t : FType0} {p : VPath} {xs : List Value}
    (hall : ∀ x ∈ xs, ∀ p', coerce0 t p' (dumpValue x) = .ok x) :
    ∀ i, elems0 (coerce0 t) p i (dumpList xs) = xs.map Except.ok := by
  induction xs with
  | nil => intro i; rfl
  | cons x rest ih =>
    intro i
    show coerce0 t (p ++ [.idx i]) (dumpValue x) ::
        elems0 (coerce0 t) p (i + 1) (dumpList rest) =
      Except.ok x :: rest.map Except.ok
    rw [hall x (List.mem_cons_self _ _) _,
      ih (fun y hy p' => hall y (List.mem_cons_of_mem _ hy) p') (i + 1)]

/-- Re-coercing the dump of a conforming value at a leaf type returns
exactly that value. -/
theorem passes0_dump {t : FType0} :
    ∀ {val : Value}, passes0 t val = true →
      ∀ p, coerce0 t p (dumpValue val) = .ok val := by
  induction t with
  | int cons =>
    intro val hp p
    cases val
    case vint n =>
      have hc : cons.all (intConsOk n) = true := by simpa [passes0] using hp
      simp [coerce0, dumpValue, intLax, intConsViols_nil.mpr hc]
    all_goals simp [passes0] at hp
  | float cons =>
    intro val hp p
    cases val
    case vfloat q =>
      have hc : cons.all (floatConsOk q) = true := by simpa [passes0] using hp
      simp [coerce0, dumpValue, floatLax, floatConsViols_nil.mpr hc]
    all_goals simp [passes0] at hp
  | str =>
    intro val hp p
    cases val
    case vstr s => rfl
    all_goals simp [passes0] at hp
  | bool =>
    intro val hp p
    cases val
    case vbool b => rfl
    all_goals simp [passes0] at hp
  | date =>
    intro val hp p
    cases val
    case vdate d => rfl
    all_goals simp [passes0] at hp
  | datetime =>
    intro val hp p
    cases val
    case vdatetime dt => rfl
    all_goals simp [passes0] at hp
  | lit opts =>
    intro val hp p
    cases val
    case vstr s =>
      have hc : opts.contains s = true := by simpa [passes0] using hp
      simp only [coerce0, dumpValue, hc, if_true]
    all_goals simp [passes0] at hp
  | list t ih =>
    intro val hp p
    cases val
    case vlist xs =>
      have hallp : ∀ x ∈ xs, passes0 t x = true :=
        List.all_eq_true.mp (by simpa [passes0] using hp)
      have hall : ∀ x ∈ xs, ∀ p', coerce0 t p' (dumpValue x) = .ok x :=
        fun x hx p' => ih (hallp x hx) p'
      show combineElems (elems0 (coerce0 t) p 0 (dumpList xs)) =
        Except.ok (Value.vlist xs)
      rw [elems0_dump hall 0, combineElems_all_ok]
    all_goals simp [passes0] at hp

/-- A leaf field with no default that reports no violations was coerced
successfully: it contributes exactly one conforming entry. -/
theorem validateField0_success_inv {p : VPath} {m : String} {gd : FDecl0}
    {obj : List (String × JValue)} {afs : List (String × Value)}
    (hdflt : gd.dflt = none)
    (h : validateField0 p m gd obj = .ok ([], afs)) :
    ∃ v, afs = [(m, v)] ∧ passes0 gd.ty v = true := by
  unfold validateField0 at h
  split at h
  · rw [hdflt] at h
    simp at h
  · next raw heq =>
    split at h
    · next cvs heqc =>
      have h2 : cvs = [] ∧ afs = [] := by
        cases h
        exact ⟨rfl, rfl⟩
      exact absurd h2.1 (coerce0_error_ne_nil heqc)
    · next v heqc =>
      split at h
      · cases h
      · cases h
        exact ⟨v, rfl, coerce0_passes heqc⟩
      · next hne heqr =>
        simp at h
        exact absurd h.1 hne

/-- Inversion for validating a nonempty leaf field list (success
variant, mirroring `validateFields1_cons_inv`). -/
theorem validateFields0_conform {ds : List (String × FDecl0)} :
    ∀ {p : VPath} {obj : List (String × JValue)} {fs : List (String × Value)},
      (∀ x ∈ ds, x.2.dflt = none) →
      validateFields0 p obj ds = .ok ([], fs) →
      conformFields0 ds fs = true := by
  induction ds with
  | nil =>
    intro p obj fs _ h
    cases h
    rfl
  | cons hd rest ih =>
    obtain ⟨m, gd⟩ := hd
    intro p obj fs hdflt h
    obtain ⟨avs, afs, bvs, bfs, ha, hb, hnil, rfl⟩ := validateFields0_cons_inv h
    obtain ⟨hanil, hbnil⟩ := List.append_eq_nil.mp hnil.symm
    subst hanil
    subst hbnil
    obtain ⟨v, rfl, hpass⟩ :=
      validateField0_success_inv (hdflt (m, gd) (List.mem_cons_self _ _)) ha
    have hrest := ih (fun x hx => hdflt x (List.mem_cons_of_mem _ hx)) hb
    show conformFields0 ((m, gd) :: rest) ((m, v) :: bfs) = true
    simp only [conformFields0, Bool.and_eq_true]
    exact ⟨⟨by simp, hpass⟩, hrest⟩

/-- Field names survive dumping. -/
theorem dumpFields_names (fs : List (String × Value)) :
    (dumpFields fs).map Prod.fst = fs.map Prod.fst := by
  induction fs with
  | nil => rfl
  | cons hd rest ih =>
    obtain ⟨n, v⟩ := hd
    show (n, dumpValue v).1 :: (dumpFields rest).map Prod.fst =
      n :: rest.map Prod.fst
    rw [ih]

/-- Looking a field up in the dumped record finds the dump of its
value. -/
theorem lookup_dumpFields {fs : List (String × Value)} :
    ∀ {n : String} {v : Value}, nodupKeysB (fs.map Prod.fst) = true →
      (n, v) ∈ fs → lookupKey (dumpFields fs) n = some (dumpValue v) := by
  induction fs with
  | nil =>
    intro n v _ hmem
    cases hmem
  | cons hd rest ih =>
    obtain ⟨k, w⟩ := hd
    intro n v hnd hmem
    simp only [List.map_cons, nodupKeysB, Bool.and_eq_true,
      Bool.not_eq_true'] at hnd
    obtain ⟨hknotin, hndrest⟩ := hnd
    rcases List.mem_cons.mp hmem with hhead | htail
    · injection hhead with h1 h2
      subst h1
      subst h2
      show lookupKey ((n, dumpValue v) :: dumpFields rest) n = some (dumpValue v)
      simp [lookupKey]
    · have hkn : k ≠ n := by
        intro hkn
        subst hkn
        have hin : k ∈ rest.map Prod.fst := List.mem_map_of_mem Prod.fst htail
        have hc : (rest.map Prod.fst).contains k = true :=
          List.elem_eq_true_of_mem hin
        rw [hknotin] at hc
        exact absurd hc (by decide)
      show lookupKey ((k, dumpValue w) :: dumpFields rest) n = some (dumpValue v)
      simp only [lookupKey, if_neg hkn]
      exact ih hndrest htail

/-- Conforming fields carry exactly the declared names, in order. -/
theorem conformFields0_names {ds : List (String × FDecl0)} :
    ∀ {fs : List (String × Value)}, conformFields0 ds fs = true →
      fs.map Prod.fst = ds.map Prod.fst := by
  induction ds with
  | nil =>
    intro fs h
    cases fs with
    | nil => rfl
    | cons a b => simp [conformFields0] at h
  | cons hd rest ih =>
    obtain ⟨m, gd⟩ := hd
    intro fs h
    cases fs with
    | nil => simp [conformFields0] at h
    | cons hd2 rest2 =>
      obtain ⟨n, v⟩ := hd2
      simp only [conformFields0, Bool.and_eq_true] at h
      obtain ⟨⟨hname, -⟩, hrest⟩ := h
      have hmn : m = n := beq_iff_eq.mp hname
      subst hmn
      show m :: rest2.map Prod.fst = m :: rest.map Prod.fst
      rw [ih hrest]

/-- Re-validating conforming, validator-free leaf fields against any
mapping that binds each name to the dump of its value succeeds with no
violations and rebuilds the record exactly. -/
theorem validateFields0_dump {ds : List (String × FDecl0)} :
    ∀ {fs : List (String × Value)} {obj : List (String × JValue)} {p : VPath},
      conformFields0 ds fs = true →
      (∀ x ∈ ds, x.2.validators.isEmpty = true) →
      (∀ n v, (n, v) ∈ fs → lookupKey obj n = some (dumpValue v)) →
      validateFields0 p obj ds = .ok ([], fs) := by
  induction ds with
  | nil =>
    intro fs obj p hconf _ _
    cases fs with
    | nil => rfl
    | cons a b => simp [conformFields0] at hconf
  | cons hd rest ih =>
    obtain ⟨m, gd⟩ := hd
    intro fs obj p hconf hvfree hlook
    cases fs with
    | nil => simp [conformFields0] at hconf
    | cons hd2 rest2 =>
      obtain ⟨n, v⟩ := hd2
      simp only [conformFields0, Bool.and_eq_true] at hconf
      obtain ⟨⟨hname, hpass⟩, hrest⟩ := hconf
      have hmn : m = n := beq_iff_eq.mp hname
      subst hmn
      have hvnil : gd.validators = [] :=
        List.isEmpty_iff.mp (hvfree (m, gd) (List.mem_cons_self _ _))
      have hfield : validateField0 p m gd obj = .ok ([], [(m, v)]) := by
        simp only [validateField0, hlook m v (List.mem_cons_self _ _),
          passes0_dump hpass, hvnil, runValidators]
      have hrest2 : validateFields0 p obj rest = .ok ([], rest2) :=
        ih hrest (fun x hx => hvfree x (List.mem_cons_of_mem _ hx))
          (fun n2 v2 h2 => hlook n2 v2 (List.mem_cons_of_mem _ h2))
      unfold validateFields0
      rw [hfield]
      show validateFields0 p obj rest >>= _ = _
      rw [hrest2]
      rfl

/-- Inversion of validating a mapping against a leaf model. -/
theorem validateModel0_jobj_inv {m : MDecl0} {p : VPath}
    {obj : List (String × JValue)} {out : MOut}
    (h : validateModel0 m p (.jobj obj) = .ok out) :
    ∃ vs fs, validateFields0 p obj m.fields = .ok (vs, fs) ∧
      out = ⟨vs ++ (extraOut m.extra p (m.fields.map Prod.fst) obj).1, fs,
             (extraOut m.extra p (m.fields.map Prod.fst) obj).2⟩ := by
  rw [validateModel0] at h
  cases hf : validateFields0 p obj m.fields with
  | error e => rw [hf] at h; cases h
  | ok r =>
    obtain ⟨vs, fs⟩ := r
    rw [hf] at h
    simp only [Except.bind, bind] at h
    cases h
    exact ⟨vs, fs, rfl, rfl⟩

/-- With no undeclared keys, every policy returns an empty extra part. -/
theorem extraOut_of_no_extra {policy : ExtraPolicy} {p : VPath}
    {declared : List String} {obj : List (String × JValue)}
    (h : obj.filter (fun kv => !(declared.contains kv.1)) = []) :
    extraOut policy p declared obj = ([], []) := by
  cases policy with
  | ignore => rfl
  | allow =>
    show (([], obj.filter (fun kv => !(declared.contains kv.1))) :
      List Violation × List (String × JValue)) = ([], [])
    rw [h]
  | forbid =>
    show (((obj.filter (fun kv => !(declared.contains kv.1))).map
        (fun kv => Violation.unknownField (p ++ [.key kv.1])), []) :
      List Violation × List (String × JValue)) = ([], [])
    rw [h]
    rfl

/-- A clean leaf validation of a mapping yields fields conforming to the
declaration (for declarations without defaults). -/
theorem validateModel0_conform {m : MDecl0} {p : VPath} {v : JValue}
    {out : MOut} (hok : declOk0 m = true)
    (h : validateModel0 m p v = .ok out) (hnil : out.viols = []) :
    conformFields0 m.fields out.fields = true := by
  cases v
  case jobj obj =>
    obtain ⟨vs, fs, hf, rfl⟩ := validateModel0_jobj_inv h
    simp only at hnil
    obtain ⟨hvs, -⟩ := List.append_eq_nil.mp hnil
    subst hvs
    simp only [declOk0, Bool.and_eq_true, List.all_eq_true] at hok
    have hdflt : ∀ x ∈ m.fields, x.2.dflt = none := by
      intro x hx
      have := (hok.2 x hx).2
      exact Option.isNone_iff_eq_none.mp this
    exact validateFields0_conform hdflt hf
  all_goals {
    have h2 : (Except.ok (⟨[Violation.typeError p "dict"], [], []⟩ : MOut) :
        Except String MOut) = Except.ok out := h
    cases h2
    cases hnil }

/-- Re-validating the dump of a conforming record against its (ok) leaf
declaration succeeds with no violations and no extras, rebuilding the
record exactly. -/
theorem validateModel0_dump {m : MDecl0} {p : VPath}
    {fs : List (String × Value)} (hok : declOk0 m = true)
    (hconf : conformFields0 m.fields fs = true) :
    validateModel0 m p (.jobj (dumpFields fs)) = .ok ⟨[], fs, []⟩ := by
  simp only [declOk0, Bool.and_eq_true, List.all_eq_true] at hok
  obtain ⟨hnd, hfl⟩ := hok
  have hnames : fs.map Prod.fst = m.fields.map Prod.fst :=
    conformFields0_names hconf
  have hndfs : nodupKeysB (fs.map Prod.fst) = true := by rw [hnames]; exact hnd
  have hlook : ∀ n v, (n, v) ∈ fs →
      lookupKey (dumpFields fs) n = some (dumpValue v) :=
    fun n v hm => lookup_dumpFields hndfs hm
  have hfields : validateFields0 p (dumpFields fs) m.fields = .ok ([], fs) :=
    validateFields0_dump hconf (fun x hx => (hfl x hx).1) hlook
  have hex : (dumpFields fs).filter
      (fun kv => !((m.fields.map Prod.fst).contains kv.1)) = [] := by
    rw [List.filter_eq_nil_iff]
    intro kv hkv
    have hk : kv.1 ∈ (dumpFields fs).map Prod.fst := List.mem_map_of_mem _ hkv
    rw [dumpFields_names, hnames] at hk
    have hc : (m.fields.map Prod.fst).contains kv.1 = true :=
      List.elem_eq_true_of_mem hk
    rw [hc]
    decide
  simp only [validateModel0, hfields, Except.bind, bind,
    extraOut_of_no_extra hex, List.nil_append]

/-- Optional types accept whatever the inner type accepts. -/
theorem passes1_opt {t : FType1} {val : Value} (h : passes1 t val = true) :
    passes1 (.opt t) val = true := by
  cases val <;> simp [passes1] <;> simpa [passes1] using h

/-- A successful player-level coercion (over nested declarations that
are duplicate-free, validator-free and default-free) produces a
conforming value. -/
theorem coerce1_passes {t : FType1} :
    ∀ {p : VPath} {v : JValue} {val : Value}, tyOk1 t = true →
      coerce1 t p v = .ok (.ok val) → passes1 t val = true := by
  induction t with
  | base t0 =>
    intro p v val _ h
    have h2 : (Except.ok (coerce0 t0 p v) :
        Except String (Except (List Violation) Value)) =
      Except.ok (Except.ok val) := h
    injection h2 with h3
    show passes0 t0 val = true
    exact coerce0_passes h3
  | nested m =>
    intro p v val hok h
    unfold coerce1 at h
    cases h0 : validateModel0 m p v with
    | error e => rw [h0] at h; cases h
    | ok out =>
      rw [h0] at h
      simp only [Except.bind, bind] at h
      split at h
      · next heq =>
        cases h
        show conformFields0 m.fields out.fields = true
        exact validateModel0_conform hok h0 heq
      · cases h
  | opt t ih =>
    intro p v val hok h
    unfold coerce1 at h
    split at h
    · cases h
      rfl
    · exact passes1_opt (ih hok h)
  | list t ih =>
    intro p v val hok h
    cases v
    case jarr xs =>
      have h2 : (do
          let rs ← elems1 (coerce1 t) p 0 xs
          Except.ok (combineElems rs)) = Except.ok (Except.ok val) := h
      cases h1 : elems1 (coerce1 t) p 0 xs with
      | error e => rw [h1] at h2; cases h2
      | ok rs =>
        rw [h1] at h2
        simp only [Except.bind, bind] at h2
        injection h2 with h3
        obtain ⟨rfl, hnil⟩ := combineElems_ok_inv h3
        simp only [passes1]
        rw [List.all_eq_true]
        intro x hx
        obtain ⟨r, hr, rfl⟩ := List.mem_map.mp hx
        have herr : errsOf r = [] := List.flatMap_eq_nil_iff.mp hnil _ hr
        obtain ⟨j, y, hf⟩ := elems1_mem h1 hr
        cases r with
        | error evs =>
          simp only [errsOf] at herr
          exact absurd herr (coerce1_error_ne_nil hf)
        | ok w =>
          simp only [valOf]
          exact ih hok hf
    all_goals {
      have h2 : (Except.ok (Except.error [Violation.typeError p "list"]) :
          Except String (Except (List Violation) Value)) =
        Except.ok (Except.ok val) := h
      injection h2 with h3
      cases h3 }

/-- Dumping and re-coercing a list of already-valid elements at a
player-level type yields the elements back. -/
theorem elems1_dump {t : FType1} {p : VPath} {xs : List Value}
    (hall : ∀ x ∈ xs, ∀ p', coerce1 t p' (dumpValue x) = .ok (.ok x)) :
    ∀ i, elems1 (coerce1 t) p i (dumpList xs) = .ok (xs.map Except.ok) := by
  induction xs with
  | nil => intro i; rfl
  | cons x rest ih =>
    intro i
    show (do
      let r ← coerce1 t (p ++ [.idx i]) (dumpValue x)
      let rs ← elems1 (coerce1 t) p (i + 1) (dumpList rest)
      Except.ok (r :: rs)) = Except.ok ((x :: rest).map Except.ok)
    rw [hall x (List.mem_cons_self _ _) _]
    simp only [Except.bind, bind]
    rw [ih (fun y hy p' => hall y (List.mem_cons_of_mem _ hy) p') (i + 1)]
    rfl

/-- Re-coercing the dump of a conforming value at a player-level type
returns exactly that value. -/
theorem passes1_dump {t : FType1} :
    ∀ {val : Value}, tyOk1 t = true → passes1 t val = true →
      ∀ p, coerce1 t p (dumpValue val) = .ok (.ok val) := by
  induction t with
  | base t0 =>
    intro val _ hp p
    show Except.ok (coerce0 t0 p (dumpValue val)) = Except.ok (Except.ok val)
    rw [passes0_dump hp]
  | nested m =>
    intro val hok hp p
    cases val
    case vrec fs =>
      have hconf : conformFields0 m.fields fs = true := by
        simpa [passes1] using hp
      show (do
        let out ← validateModel0 m p (.jobj (dumpFields fs))
        if out.viols = [] then
          Except.ok (Except.ok (Value.vrec out.fields))
        else Except.ok (Except.error out.viols)) =
        Except.ok (Except.ok (Value.vrec fs))
      rw [validateModel0_dump hok hconf]
      rfl
    all_goals simp [passes1] at hp
  | opt t ih =>
    intro val hok hp p
    cases val
    case vnone => rfl
    all_goals {
      exact ih hok (by simpa [passes1] using hp) p }
  | list t ih =>
    intro val hok hp p
    cases val
    case vlist xs =>
      have hallp : ∀ x ∈ xs, passes1 t x = true :=
        List.all_eq_true.mp (by simpa [passes1] using hp)
      have hall : ∀ x ∈ xs, ∀ p', coerce1 t p' (dumpValue x) = .ok (.ok x) :=
        fun x hx p' => ih hok (hallp x hx) p'
      show (do
        let rs ← elems1 (coerce1 t) p 0 (dumpList xs)
        Except.ok (combineElems rs)) =
        Except.ok (Except.ok (Value.vlist xs))
      rw [elems1_dump hall 0]
      simp only [Except.bind, bind]
      rw [combineElems_all_ok]
    all_goals simp [passes1] at hp

/-- A player-level field that reports no violations either coerced an
input value successfully or filled in its declared default. -/
theorem validateField1_success_cases {p : VPath} {m : String} {gd : FDecl1}
    {obj : List (String × JValue)} {afs : List (String × Value)}
    (h : validateField1 p m gd obj = .ok ([], afs)) :
    (∃ raw v, lookupKey obj m = some raw ∧
        coerce1 gd.ty (p ++ [.key m]) raw = .ok (.ok v) ∧ afs = [(m, v)]) ∨
      (∃ dv, lookupKey obj m = none ∧ gd.dflt = some dv ∧ afs = [(m, dv)]) := by
  unfold validateField1 at h
  split at h
  · next hlook =>
    split at h
    · next dv hdflt =>
      cases h
      exact Or.inr ⟨dv, hlook, hdflt, rfl⟩
    · simp at h
  · next raw hlook =>
    cases hc : coerce1 gd.ty (p ++ [PathItem.key m]) raw with
    | error e => rw [hc] at h; cases h
    | ok c =>
      rw [hc] at h
      cases c with
      | error cvs =>
        simp only [Except.bind, bind] at h
        have h2 : cvs = [] ∧ afs = [] := by
          cases h
          exact ⟨rfl, rfl⟩
        exact absurd h2.1 (coerce1_error_ne_nil hc)
      | ok v =>
        simp only [Except.bind, bind] at h
        cases hr : runValidators (p ++ [PathItem.key m]) v gd.validators with
        | error exc => rw [hr] at h; cases h
        | ok rvs =>
          rw [hr] at h
          cases rvs with
          | nil =>
            cases h
            exact Or.inl ⟨raw, v, hlook, hc, rfl⟩
          | cons a rest2 => simp at h

/-- A clean player-level field pass produces fields conforming to the
declarations, provided each field either sees its key in the input or
declares no default. -/
theorem validateFields1_conform {ds : List (String × FDecl1)} :
    ∀ {p : VPath} {obj : List (String × JValue)} {fs : List (String × Value)},
      (∀ x ∈ ds, tyOk1 x.2.ty = true) →
      (∀ x ∈ ds, lookupKey obj x.1 ≠ none ∨ x.2.dflt = none) →
      validateFields1 p obj ds = .ok ([], fs) →
      conformFields1 ds fs = true := by
  induction ds with
  | nil =>
    intro p obj fs _ _ h
    cases h
    rfl
  | cons hd rest ih =>
    obtain ⟨m, gd⟩ := hd
    intro p obj fs hty hpres h
    obtain ⟨avs, afs, bvs, bfs, ha, hb, hnil, rfl⟩ := validateFields1_cons_inv h
    obtain ⟨hanil, hbnil⟩ := List.append_eq_nil.mp hnil.symm
    subst hanil
    subst hbnil
    have hrest := ih (fun x hx => hty x (List.mem_cons_of_mem _ hx))
      (fun x hx => hpres x (List.mem_cons_of_mem _ hx)) hb
    rcases validateField1_success_cases ha with
      ⟨raw, v, hlook, hc, rfl⟩ | ⟨dv, hlook, hdflt, rfl⟩
    · have hpass : passes1 gd.ty v = true :=
        coerce1_passes (hty (m, gd) (List.mem_cons_self _ _)) hc
      show conformFields1 ((m, gd) :: rest) ((m, v) :: bfs) = true
      simp only [conformFields1, Bool.and_eq_true]
      exact ⟨⟨by simp, hpass⟩, hrest⟩
    · rcases hpres (m, gd) (List.mem_cons_self _ _) with hne | hnone
      · exact absurd hlook hne
      · rw [hnone] at hdflt
        cases hdflt

/-- Conforming player-level fields carry exactly the declared names. -/
theorem conformFields1_names {ds : List (String × FDecl1)} :
    ∀ {fs : List (String × Value)}, conformFields1 ds fs = true →
      fs.map Prod.fst = ds.map Prod.fst := by
  induction ds with
  | nil =>
    intro fs h
    cases fs with
    | nil => rfl
    | cons a b => simp [conformFields1] at h
  | cons hd rest ih =>
    obtain ⟨m, gd⟩ := hd
    intro fs h
    cases fs with
    | nil => simp [conformFields1] at h
    | cons hd2 rest2 =>
      obtain ⟨n, v⟩ := hd2
      simp only [conformFields1, Bool.and_eq_true] at h
      obtain ⟨⟨hname, -⟩, hrest⟩ := h
      have hmn : m = n := beq_iff_eq.mp hname
      subst hmn
      show m :: rest2.map Prod.fst = m :: rest.map Prod.fst
      rw [ih hrest]

/-- Re-validating conforming, validator-free player-level fields against
a mapping that binds each name to the dump of its value succeeds with no
violations and rebuilds the record exactly. -/
theorem validateFields1_dump {ds : List (String × FDecl1)} :
    ∀ {fs : List (String × Value)} {obj : List (String × JValue)} {p : VPath},
      conformFields1 ds fs = true →
      (∀ x ∈ ds, x.2.validators.isEmpty = true ∧ tyOk1 x.2.ty = true) →
      (∀ n v, (n, v) ∈ fs → lookupKey obj n = some (dumpValue v)) →
      validateFields1 p obj ds = .ok ([], fs) := by
  induction ds with
  | nil =>
    intro fs obj p hconf _ _
    cases fs with
    | nil => rfl
    | cons a b => simp [conformFields1] at hconf
  | cons hd rest ih =>
    obtain ⟨m, gd⟩ := hd
    intro fs obj p hconf hvfree hlook
    cases fs with
    | nil => simp [conformFields1] at hconf
    | cons hd2 rest2 =>
      obtain ⟨n, v⟩ := hd2
      simp only [conformFields1, Bool.and_eq_true] at hconf
      obtain ⟨⟨hname, hpass⟩, hrest⟩ := hconf
      have hmn : m = n := beq_iff_eq.mp hname
      subst hmn
      obtain ⟨hvnil0, hty⟩ := hvfree (m, gd) (List.mem_cons_self _ _)
      have hvnil : gd.validators = [] := List.isEmpty_iff.mp hvnil0
      have hfield : validateField1 p m gd obj = .ok ([], [(m, v)]) := by
        simp only [validateField1, hlook m v (List.mem_cons_self _ _),
          passes1_dump hty hpass, hvnil, runValidators, Except.bind, bind]
      have hrest2 : validateFields1 p obj rest = .ok ([], rest2) :=
        ih hrest (fun x hx => hvfree x (List.mem_cons_of_mem _ hx))
          (fun n2 v2 h2 => hlook n2 v2 (List.mem_cons_of_mem _ h2))
      unfold validateFields1
      rw [hfield]
      show validateFields1 p obj rest >>= _ = _
      rw [hrest2]
      rfl

/-- Every v3 field type is over duplicate-free, validator-free,
default-free nested declarations. -/
theorem v3Player_tyOk : ∀ x ∈ v3Player.fields, tyOk1 x.2.ty = true := by
  intro x hx
  simp only [v3Player, List.mem_cons, List.not_mem_nil, or_false] at hx
  rcases hx with rfl | rfl | rfl | rfl | rfl | rfl | rfl | rfl | rfl <;> rfl

/-- The v3 fields bind no custom validators. -/
theorem v3Player_vfree :
    ∀ x ∈ v3Player.fields, x.2.validators.isEmpty = true ∧ tyOk1 x.2.ty = true := by
  intro x hx
  simp only [v3Player, List.mem_cons, List.not_mem_nil, or_false] at hx
  rcases hx with rfl | rfl | rfl | rfl | rfl | rfl | rfl | rfl | rfl <;>
    exact ⟨rfl, rfl⟩

/-- When `dob` is present in the input, every v3 field either sees its
key or declares no default. -/
theorem v3Player_pres (es : List (String × JValue))
    (hdob : (lookupKey es "dob").isSome = true) :
    ∀ x ∈ v3Player.fields, lookupKey es x.1 ≠ none ∨ x.2.dflt = none := by
  intro x hx
  simp only [v3Player, List.mem_cons, List.not_mem_nil, or_false] at hx
  rcases hx with rfl | rfl | rfl | rfl | rfl | rfl | rfl | rfl | rfl
  · exact Or.inr rfl
  · exact Or.inr rfl
  · exact Or.inr rfl
  · exact Or.inr rfl
  · refine Or.inl ?_
    intro hnone
    rw [hnone] at hdob
    cases hdob
  · exact Or.inr rfl
  · exact Or.inr rfl
  · exact Or.inr rfl
  · exact Or.inr rfl

/-- C7 amended: for the v3 `Player`, a successfully validated record
re-serialized to the original mapping shape (its dumped fields together
with its verbatim extra entries) re-validates with zero violations to
exactly the same record and bag — provided the input supplied `dob`
(when `dob` was absent the record holds the non-`date` default `None`,
and the round trip fails; see the counterexample). -/
theorem c7_theorem :
    ∀ es out, validateModel1 v3Player [] (.jobj es) = Except.ok out →
      out.viols = [] → (lookupKey es "dob").isSome = true →
      validateModel1 v3Player []
          (.jobj (dumpFields out.fields ++ out.extra)) = Except.ok out := by
  intro es out h hnil hdob
  obtain ⟨vs, fs, hf, rfl⟩ := validateModel1_jobj_inv h
  have hvs : vs = [] := by
    have h2 : vs ++ ([] : List Violation) = [] := hnil
    simpa using h2
  subst hvs
  have hconf : conformFields1 v3Player.fields fs = true :=
    validateFields1_conform v3Player_tyOk (v3Player_pres es hdob) hf
  have hnames : fs.map Prod.fst = v3Player.fields.map Prod.fst :=
    conformFields1_names hconf
  have hndfs : nodupKeysB (fs.map Prod.fst) = true := by
    rw [hnames]
    rfl
  have hlook2 : ∀ n v, (n, v) ∈ fs →
      lookupKey (dumpFields fs ++
        (extraOut v3Player.extra [] (v3Player.fields.map Prod.fst) es).2) n =
      some (dumpValue v) :=
    fun n v hm => lookupKey_append_some _ (lookup_dumpFields hndfs hm)
  have hfields2 : validateFields1 []
      (dumpFields fs ++
        (extraOut v3Player.extra [] (v3Player.fields.map Prod.fst) es).2)
      v3Player.fields = .ok ([], fs) :=
    validateFields1_dump hconf v3Player_vfree hlook2
  have h1 : (dumpFields fs).filter
      (fun kv => !((v3Player.fields.map Prod.fst).contains kv.1)) = [] := by
    rw [List.filter_eq_nil_iff]
    intro kv hkv
    have hk : kv.1 ∈ (dumpFields fs).map Prod.fst := List.mem_map_of_mem _ hkv
    rw [dumpFields_names, hnames] at hk
    have hc : (v3Player.fields.map Prod.fst).contains kv.1 = true :=
      List.elem_eq_true_of_mem hk
    rw [hc]
    decide
  have h2 : ((extraOut v3Player.extra [] (v3Player.fields.map Prod.fst) es).2).filter
      (fun kv => !((v3Player.fields.map Prod.fst).contains kv.1)) =
      (extraOut v3Player.extra [] (v3Player.fields.map Prod.fst) es).2 := by
    refine List.filter_eq_self.mpr ?_
    intro kv hkv
    have hkv2 : kv ∈ es.filter
        (fun kv => !((v3Player.fields.map Prod.fst).contains kv.1)) := hkv
    exact (List.mem_filter.mp hkv2).2
  have hexout : extraOut v3Player.extra [] (v3Player.fields.map Prod.fst)
      (dumpFields fs ++
        (extraOut v3Player.extra [] (v3Player.fields.map Prod.fst) es).2) =
      ([], (extraOut v3Player.extra [] (v3Player.fields.map Prod.fst) es).2) := by
    show (([], (dumpFields fs ++
        (extraOut v3Player.extra [] (v3Player.fields.map Prod.fst) es).2).filter
          (fun kv => !((v3Player.fields.map Prod.fst).contains kv.1))) :
      List Violation × List (String × JValue)) = _
    rw [List.filter_append, h1, h2, List.nil_append]
  simp only [validateModel1, hfields2, hexout, Except.bind, bind]
  rfl

/-- C7 counterexample: the claim asserts the round trip holds in
particular for v3's `Player` with `dob` absent (filled by the default
`None`).  On the v3 sample payload the validated record re-serialized to
the original mapping shape re-validates with a type-error violation at
`dob`, not with zero violations: the dumped record carries `dob = None`,
which does not coerce to the declared type `date`. -/
theorem c7_counterexample :
    validate v3Player v3Schema =
        Except.ok (.validated v3Fields [("height", .jstr "6 feet 11 inches")]) ∧
      validate v3Player
          (.jobj (dumpFields v3Fields ++ [("height", .jstr "6 feet 11 inches")])) =
        Except.ok (.invalid [.typeError [.key "dob"] "date"]) :=
  ⟨rfl, rfl⟩

/-- The v3 sample payload with a `dob` entry added. -/
def v3EntriesWithDob : List (String × JValue) :=
  v3SchemaEntries ++ [("dob", .jstr "1976-04-25")]

/-- The record the v3 `Player` produces on the sample payload with `dob`
present. -/
def v3FieldsDob : List (String × Value) :=
  [("id", .vint 1),
   ("name", .vstr "Tim Duncan"),
   ("teams", .vlist
     [.vrec
       [("name", .vstr "San Antonio Spurs"),
        ("championships", .vlist
          [.vint 1999, .vint 2003, .vint 2005, .vint 2007, .vint 2014])]]),
   ("career_stats", .vrec
     [("ppg", .vfloat 19),
      ("rpg", .vfloat (mkRat 54 5)),
      ("apg", .vfloat 3)]),
   ("dob", .vdate ⟨1976, 4, 25⟩),
   ("draft_year", .vint 1997),
   ("positions_played", .vlist [.vstr "F", .vstr "C"]),
   ("is_active", .vbool false),
   ("last_updated", .vnone)]

/-- C7 witness: the round trip instantiated on the v3 sample payload
with `dob` supplied. -/
theorem c7_witness :
    validateModel1 v3Player []
        (.jobj (dumpFields v3FieldsDob ++
          [("height", .jstr "6 feet 11 inches")])) =
      Except.ok ⟨[], v3FieldsDob, [("height", .jstr "6 feet 11 inches")]⟩ :=
  c7_theorem v3EntriesWithDob
    ⟨[], v3FieldsDob, [("height", .jstr "6 feet 11 inches")]⟩ rfl rfl rfl

/-- C2 witness: the default policy instantiated on a concrete unknown
entry, which is dropped silently. -/
theorem c2_witness :
    extraOut defaultExtraPolicy [] ["id", "name"]
      [("height", JValue.jstr "6 feet 11 inches")] = ([], []) :=
  c2_theorem.2.2.1 [] ["id", "name"] [("height", .jstr "6 feet 11 inches")]
